import Mathlib

/-!
# lfstack benchmark harness (`main.c`)

A shallow embedding of the harness in `main.c`: the `timespecsub` macro, the
fallback `pthread_barrier_t` built from atomics, the worker routine `work`,
the teardown callback `mydtor` and the arithmetic of `main`.

Machine integers are natural numbers or integers with an explicit modulus:
`u_int` is taken modulo `2 ^ 32` and `u_long` modulo `2 ^ 64` (LP64).
Integer division by zero is undefined in C and is modelled by `none`.

Concurrent code is a step function on a state: every step is one access to shared
memory by one thread, a schedule is a list of steps, and an interleaving is the run of a
schedule.  The stack itself (`lfstack.h`) is not part of the sources; its operations are
modelled from their contract.
-/

namespace LFStack

/-! ## Machine integers -/

/-- Modulus of `u_int` and `atomic_uint` arithmetic. -/
def UINT_MOD : Nat := 2 ^ 32

/-- Modulus of `u_long` arithmetic. -/
def ULONG_MOD : Nat := 2 ^ 64

/-- Value of `PTHREAD_BARRIER_SERIAL_THREAD` as defined at line 68. -/
def PTHREAD_BARRIER_SERIAL_THREAD : Int := -1

/-! ## `timespecsub` (lines 49-59) -/

/-- The two fields of `struct timespec` that the harness reads. -/
structure timespec where
  tv_sec : Int
  tv_nsec : Int
  deriving DecidableEq, Repr

/-- The macro `timespecsub(tsp, usp, vsp)`: returns the value stored in `*vsp`. -/
def timespecsub (tsp usp : timespec) : timespec :=
  let sec := tsp.tv_sec - usp.tv_sec
  let nsec := tsp.tv_nsec - usp.tv_nsec
  if nsec < 0 then ⟨sec - 1, nsec + 1000000000⟩ else ⟨sec, nsec⟩

/-- The value of `elapsed` at line 274, computed from `g.ts_delta`. -/
def elapsed_of (ts_delta : timespec) : Int :=
  ts_delta.tv_sec * 1000000000 + ts_delta.tv_nsec

/-- Lines 270 and 274 of `main` together: `elapsed` from the two recorded timestamps. -/
def main_elapsed (ts_start ts_done : timespec) : Int :=
  elapsed_of (timespecsub ts_done ts_start)

/-! ## The iteration budget (lines 236-241) -/

/-- Lines 239-241 of `main`: `g.itermax` from `tdargsc`.  The quotient
`(128 * 1024 * 1024) / tdargsc` is an unsigned division, undefined for a zero divisor. -/
def main_itermax (tdargsc : Nat) : Option Nat :=
  if tdargsc = 0 then none
  else
    let itermax := (128 * 1024 * 1024) / tdargsc
    if itermax > 4 * 1024 * 1024 then some (4 * 1024 * 1024) else some itermax

/-- The expression `g.itermax * tdargsc` of lines 280-281, in `u_long` arithmetic. -/
def main_expected (itermax tdargsc : Nat) : Nat :=
  (itermax * tdargsc) % ULONG_MOD

/-- The integer quotient `elapsed / g.itermax` of line 277: `elapsed` is converted to
`u_long`, and the division is undefined for a zero divisor. -/
def main_iter_quot (elapsed : Int) (itermax : Nat) : Option Nat :=
  if itermax = 0 then none
  else some ((elapsed % (ULONG_MOD : Int)).toNat / itermax)

/-- The two integer divisions that `main` performs for a thread count: line 239 and
line 277.  The result is the pair (`g.itermax`, `elapsed / g.itermax`). -/
def main_divisions (tdargsc : Nat) (elapsed : Int) : Option (Nat × Nat) :=
  match main_itermax tdargsc with
  | none => none
  | some itermax =>
    match main_iter_quot elapsed itermax with
    | none => none
    | some q => some (itermax, q)

/-! ## Teardown (lines 164-171, 272) -/

/-- The node type `struct mynode`. -/
structure mynode where
  count : Nat
  deriving DecidableEq, Repr

/-- The callback `mydtor`: the new value of `g.count` after visiting `node`. -/
def mydtor (g_count : Nat) (node : mynode) : Nat :=
  (g_count + node.count) % ULONG_MOD

/-- Modelled from the spec: `lfstack_destroy` (the stack is declared in `lfstack.h`, which
is not part of the sources).  It invokes the visitor once on each resident node, here in
the order of the list `resident`; the result is the final value of `g.count`. -/
def lfstack_destroy (g_count : Nat) (resident : List mynode) : Nat :=
  resident.foldl mydtor g_count

/-! ## Reporting and validation (lines 270-285) -/

/-- What `main` leaves behind when it terminates normally after the workers were joined. -/
structure Outcome where
  /-- exit status -/
  status : Nat
  /-- the integer `elapsed` printed (scaled) on the summary line -/
  elapsed : Int
  /-- the integer quotient `elapsed / g.itermax` printed (scaled) on the summary line -/
  iter_quot : Nat
  /-- the `count` field of the summary line -/
  count : Nat
  /-- the `empty` field of the summary line -/
  empty : Nat
  /-- the two values of the message on the error stream, if one is written -/
  error : Option (Nat × Nat)
  deriving DecidableEq, Repr

/-- Lines 270-285 of `main`, after `lfstack_destroy` has left `count` in `g.count`.
The result is `none` when the division of line 277 has a zero divisor. -/
def main_report (tdargsc itermax : Nat) (ts_start ts_done : timespec)
    (count empty : Nat) : Option Outcome :=
  let elapsed := main_elapsed ts_start ts_done
  match main_iter_quot elapsed itermax with
  | none => none
  | some q =>
    if count ≠ main_expected itermax tdargsc then
      some ⟨1, elapsed, q, count, empty, some (count, main_expected itermax tdargsc)⟩
    else
      some ⟨0, elapsed, q, count, empty, none⟩

/-! ## The fallback barrier (lines 64-102) -/

/-- The fallback `pthread_barrier_t` of lines 70-74. -/
structure pthread_barrier_t where
  count : Nat
  max : Nat
  init : Nat
  deriving DecidableEq, Repr

/-- The function `pthread_barrier_init` (lines 76-84): the barrier it leaves in `*bar`. -/
def pthread_barrier_init (count : Nat) : pthread_barrier_t :=
  { count := 0, max := count, init := count }

/-- Program counter of one call of `pthread_barrier_wait` (lines 86-101).  Every
constructor but the last stands before one access to the shared barrier. -/
inductive WaitPc where
  /-- before `atomic_fetch_add(&bar->count, 1)`, line 89 -/
  | fetch_add
  /-- before the loop condition of line 91, neither operand loaded yet -/
  | test
  /-- in the loop condition, `bar->count` has been loaded, `bar->max` not yet -/
  | have_count (c : Nat)
  /-- in the loop condition, `bar->max` has been loaded, `bar->count` not yet -/
  | have_max (m : Nat)
  /-- before `atomic_fetch_sub(&bar->max, 1)`, line 94 -/
  | fetch_sub
  /-- before `bar->max = bar->init`, line 95 -/
  | store_max
  /-- before `bar->count = 0`, line 96 -/
  | store_count
  /-- the call has returned `r` -/
  | returned (r : Int)
  deriving DecidableEq, Repr

/-- One atomic step of a call of `pthread_barrier_wait`.  The two operands of the loop
condition are separate loads, whose order C leaves open: `max_first` picks it.  A loop
condition that holds leads through `usleep(100)` back to the test.  A call that has
returned has no step. -/
def pthread_barrier_wait_step (bar : pthread_barrier_t) (pc : WaitPc) (max_first : Bool) :
    Option (pthread_barrier_t × WaitPc) :=
  match pc with
  | .fetch_add => some ({ bar with count := (bar.count + 1) % UINT_MOD }, .test)
  | .test => if max_first then some (bar, .have_max bar.max) else some (bar, .have_count bar.count)
  | .have_count c => some (bar, if c < bar.max then .test else .fetch_sub)
  | .have_max m => some (bar, if bar.count < m then .test else .fetch_sub)
  | .fetch_sub =>
    some ({ bar with max := (bar.max + UINT_MOD - 1) % UINT_MOD },
          if bar.max = 0 then .store_max else .returned 0)
  | .store_max => some ({ bar with max := bar.init }, .store_count)
  | .store_count => some ({ bar with count := 0 }, .returned PTHREAD_BARRIER_SERIAL_THREAD)
  | .returned _ => none

/-- A scheduling decision for the barrier: the call that moves, and the operand order it
uses should it evaluate the loop condition. -/
structure WaitAction where
  tid : Nat
  max_first : Bool
  deriving DecidableEq, Repr

/-- One barrier together with the calls of `pthread_barrier_wait` made on it. -/
structure BarrierSys where
  bar : pthread_barrier_t
  calls : List WaitPc
  deriving DecidableEq, Repr

/-- A barrier freshly initialised with `pthread_barrier_init(capacity)` and `callers`
calls of `pthread_barrier_wait` that are about to start. -/
def BarrierSys.fresh (capacity callers : Nat) : BarrierSys :=
  { bar := pthread_barrier_init capacity, calls := List.replicate callers .fetch_add }

/-- New calls of `pthread_barrier_wait` started on the barrier as it stands. -/
def BarrierSys.again (s : BarrierSys) (callers : Nat) : BarrierSys :=
  { bar := s.bar, calls := List.replicate callers .fetch_add }

/-- The call `a.tid` takes one atomic step. -/
def BarrierSys.step (s : BarrierSys) (a : WaitAction) : Option BarrierSys :=
  match s.calls[a.tid]? with
  | none => none
  | some pc =>
    match pthread_barrier_wait_step s.bar pc a.max_first with
    | none => none
    | some (bar, pc') => some { bar := bar, calls := s.calls.set a.tid pc' }

/-- An interleaving: the steps of a schedule one after the other. -/
def BarrierSys.run (s : BarrierSys) : List WaitAction → Option BarrierSys
  | [] => some s
  | a :: rest =>
    match s.step a with
    | none => none
    | some s' => BarrierSys.run s' rest

/-- The call has performed its arrival increment of `count`. -/
def WaitPc.arrived : WaitPc → Bool
  | .fetch_add => false
  | _ => true

/-- The call has left its polling loop (or returned). -/
def WaitPc.released : WaitPc → Bool
  | .fetch_sub => true
  | .store_max => true
  | .store_count => true
  | .returned _ => true
  | _ => false

/-- The call has returned. -/
def WaitPc.is_returned : WaitPc → Bool
  | .returned _ => true
  | _ => false

/-- The call is the serial one: it has taken the branch of lines 95-97. -/
def WaitPc.serial : WaitPc → Bool
  | .store_max => true
  | .store_count => true
  | .returned r => decide (r ≠ 0)
  | _ => false

/-- Number of calls that have performed their arrival increment. -/
def BarrierSys.arrivals (s : BarrierSys) : Nat :=
  s.calls.countP WaitPc.arrived

/-! ## The worker (lines 129-162) against a stack honouring the contract -/

/-- Program counter of one thread running `work`. -/
inductive WorkPc where
  /-- before `aligned_alloc` and `memset`, lines 136-140 -/
  | alloc
  /-- before the first `lfstack_push`, line 141 -/
  | push_first
  /-- inside `pthread_barrier_wait(&g.bar_start)`, line 143 -/
  | wait_start (w : WaitPc)
  /-- before `clock_gettime(CLOCK_MONOTONIC, &g.ts_start)`, line 144 -/
  | clock_start
  /-- before the test `i < g.itermax`, line 146 -/
  | loop_test
  /-- before `lfstack_pop`, line 148 -/
  | pop
  /-- before the load of `node->count++`, line 153 -/
  | incr
  /-- between the load and the store of `node->count++`; `tmp` is the value loaded -/
  | store (tmp : Nat)
  /-- before `lfstack_push` and `++i`, lines 155 and 146 -/
  | push
  /-- inside `pthread_barrier_wait(&g.bar_done)`, line 158 -/
  | wait_done (w : WaitPc)
  /-- before `clock_gettime(CLOCK_MONOTONIC, &g.ts_done)`, line 159 -/
  | clock_done
  /-- after `pthread_exit`, line 161 -/
  | exited
  deriving DecidableEq, Repr

/-- The locals of one thread running `work`, with the field `empty` of its `struct tdargs`.
`node` is the address of the node the thread holds, `none` while it holds none (after a
push the C variable still has the address, but the node is the stack's).  The loop
counter `i`, which C leaves without a value until line 146 sets it, starts as 0. -/
structure Worker where
  pc : WorkPc
  node : Option Nat
  i : Nat
  empty : Nat
  deriving DecidableEq, Repr

/-- The shared state: the global `g`, the allocated nodes (`heap`, a node's address is
its index) and the addresses of the nodes resident in the stack. -/
structure Sys where
  bar_start : pthread_barrier_t
  bar_done : pthread_barrier_t
  ts_start : timespec
  ts_done : timespec
  itermax : Nat
  heap : List mynode
  stack : List Nat
  workers : List Worker
  deriving DecidableEq, Repr

/-- A scheduling decision: the thread that moves, the operand order it uses in a barrier's
loop condition, what `lfstack_pop` answers (`none` for empty, `some k` for the resident
node at position `k`) and what `clock_gettime` reads. -/
structure Action where
  tid : Nat
  max_first : Bool
  pick : Option Nat
  now : timespec
  deriving DecidableEq, Repr

/-- Modelled from the spec: `lfstack_push` (declared in `lfstack.h`, which is not part of
the sources).  It makes the node resident. -/
def lfstack_push (stack : List Nat) (node : Nat) : List Nat :=
  node :: stack

/-- Modelled from the spec: `lfstack_pop` (declared in `lfstack.h`, which is not part of
the sources).  It reports empty (`pick = none`, allowed at any time), or hands out one
resident node, which is then resident no more.  The outer `none` is a choice that the
stack cannot make: a position with no resident node. -/
def lfstack_pop (stack : List Nat) (pick : Option Nat) : Option (Option Nat × List Nat) :=
  match pick with
  | none => some (none, stack)
  | some k =>
    match stack[k]? with
    | none => none
    | some node => some (some node, stack.eraseIdx k)

/-- One atomic step of the thread `w` running `work`.  `aligned_alloc` is taken to
succeed (the thread aborts the process otherwise).  The increment `node->count++` of a
plain `u_long` is a load followed by a store.  An access through a pointer that is not
the address of an allocated node has no defined behaviour: no step. -/
def work_step (s : Sys) (w : Worker) (a : Action) : Option (Sys × Worker) :=
  match w.pc with
  | .alloc =>
    some ({ s with heap := s.heap ++ [⟨0⟩] },
          { w with pc := .push_first, node := some s.heap.length })
  | .push_first =>
    match w.node with
    | none => none
    | some node =>
      some ({ s with stack := lfstack_push s.stack node },
            { w with pc := .wait_start .fetch_add, node := none })
  | .wait_start (.returned r) =>
    if r ≠ 0 then some (s, { w with pc := .clock_start })
    else some (s, { w with pc := .loop_test, i := 0 })
  | .wait_start wpc =>
    match pthread_barrier_wait_step s.bar_start wpc a.max_first with
    | none => none
    | some (bar, wpc') => some ({ s with bar_start := bar }, { w with pc := .wait_start wpc' })
  | .clock_start =>
    some ({ s with ts_start := a.now }, { w with pc := .loop_test, i := 0 })
  | .loop_test =>
    if w.i < s.itermax then some (s, { w with pc := .pop })
    else some (s, { w with pc := .wait_done .fetch_add })
  | .pop =>
    match lfstack_pop s.stack a.pick with
    | none => none
    | some (none, _) => some (s, { w with empty := (w.empty + 1) % ULONG_MOD })
    | some (some node, stack) =>
      some ({ s with stack := stack }, { w with pc := .incr, node := some node })
  | .incr =>
    match w.node with
    | none => none
    | some node =>
      match s.heap[node]? with
      | none => none
      | some n => some (s, { w with pc := .store n.count })
  | .store tmp =>
    match w.node with
    | none => none
    | some node =>
      match s.heap[node]? with
      | none => none
      | some _ =>
        some ({ s with heap := s.heap.set node ⟨(tmp + 1) % ULONG_MOD⟩ },
              { w with pc := .push })
  | .push =>
    match w.node with
    | none => none
    | some node =>
      some ({ s with stack := lfstack_push s.stack node },
            { w with pc := .loop_test, node := none, i := w.i + 1 })
  | .wait_done (.returned r) =>
    if r ≠ 0 then some (s, { w with pc := .clock_done })
    else some (s, { w with pc := .exited })
  | .wait_done wpc =>
    match pthread_barrier_wait_step s.bar_done wpc a.max_first with
    | none => none
    | some (bar, wpc') => some ({ s with bar_done := bar }, { w with pc := .wait_done wpc' })
  | .clock_done =>
    some ({ s with ts_done := a.now }, { w with pc := .exited })
  | .exited => none

/-- The thread `a.tid` takes one atomic step. -/
def Sys.step (s : Sys) (a : Action) : Option Sys :=
  match s.workers[a.tid]? with
  | none => none
  | some w =>
    match work_step s w a with
    | none => none
    | some (s', w') => some { s' with workers := s.workers.set a.tid w' }

/-- An interleaving: the steps of a schedule one after the other. -/
def Sys.run (s : Sys) : List Action → Option Sys
  | [] => some s
  | a :: rest =>
    match s.step a with
    | none => none
    | some s' => Sys.run s' rest

/-- Lines 243-262 of `main`, where they succeed: both barriers initialised with
`tdargsc`, an empty stack, and `tdargsc` threads about to run `work`.  The global `g`
is zero-initialised. -/
def main_spawn (tdargsc itermax : Nat) : Sys :=
  { bar_start := pthread_barrier_init tdargsc
    bar_done := pthread_barrier_init tdargsc
    ts_start := ⟨0, 0⟩
    ts_done := ⟨0, 0⟩
    itermax := itermax
    heap := []
    stack := []
    workers := List.replicate tdargsc ⟨.alloc, none, 0, 0⟩ }

/-- Every thread has finished `work`. -/
def Sys.all_exited (s : Sys) : Bool :=
  s.workers.all (fun w => decide (w.pc = .exited))

/-- Number of times the thread has completed `node->count++`: its completed passes
through the loop body, and the one it is in when the store is already done. -/
def Worker.increments (w : Worker) : Nat :=
  w.i + (if w.pc = .push then 1 else 0)

/-- Number of increments executed so far over all workers. -/
def Sys.increments (s : Sys) : Nat :=
  (s.workers.map Worker.increments).sum

/-- Number of passes through the loop body completed so far over all workers. -/
def Sys.iterations (s : Sys) : Nat :=
  (s.workers.map Worker.i).sum

/-- Sum of the counters of all allocated nodes, resident or held. -/
def Sys.counters (s : Sys) : Nat :=
  (s.heap.map mynode.count).sum

/-- The counter of the node at an address. -/
def Sys.counter_at (s : Sys) (node : Nat) : Nat :=
  (s.heap.getD node ⟨0⟩).count

/-- Line 272 of `main`: `g.count` after `lfstack_destroy(lfstack, mydtor)` has visited
the nodes at the addresses `visited`, in that order. -/
def main_destroy (s : Sys) (visited : List Nat) : Nat :=
  lfstack_destroy 0 (visited.map (fun node => s.heap.getD node ⟨0⟩))

/-- Lines 264-268 of `main`: the sum of the `empty` fields, in `u_long` arithmetic. -/
def main_join (s : Sys) : Nat :=
  s.workers.foldl (fun empty w => (empty + w.empty) % ULONG_MOD) 0

/-- Lines 264-285 of `main` for `tdargsc` joined workers, the teardown visiting the
nodes at the addresses `visited`. -/
def main_finish (tdargsc : Nat) (s : Sys) (visited : List Nat) : Option Outcome :=
  main_report tdargsc s.itermax s.ts_start s.ts_done (main_destroy s visited) (main_join s)

/-! ## Invariants of the barrier -/

/-- While fewer than `c` calls have arrived on a barrier of capacity `c`: `max` is still
`c`, `count` does not exceed the number of arrivals, no call has left its loop, and the
operands that the polling calls have loaded are a `count` not above the number of
arrivals or the `max` that is still `c`. -/
def Holding (c : Nat) (s : BarrierSys) : Prop :=
  s.bar.max = c ∧ s.bar.count ≤ s.arrivals
    ∧ ∀ pc ∈ s.calls, pc.released = false
        ∧ (∀ k, pc = .have_count k → k ≤ s.arrivals)
        ∧ (∀ m, pc = .have_max m → m = c)

/-- Invariant of a barrier of capacity `c`: all `c` have arrived, or it is holding. -/
def WaitInv (c : Nat) (s : BarrierSys) : Prop :=
  c ≤ s.arrivals ∨ Holding c s

/-- Number of calls that have returned. -/
def BarrierSys.returns (s : BarrierSys) : Nat :=
  s.calls.countP WaitPc.is_returned

/-- Invariant of the first cycle of a barrier of capacity `c` with `c` callers: `count`
is the number of arrivals, `max` is `c` less the number of calls that have returned,
and no call is in the branch of lines 95-97. -/
def FirstCycle (c : Nat) (s : BarrierSys) : Prop :=
  s.calls.length = c ∧ s.bar.init = c ∧ s.bar.count = s.arrivals
    ∧ s.bar.max + s.returns = c ∧ ∀ pc ∈ s.calls, pc.serial = false

/-! ## Invariants of the workers -/

/-- The node a thread holds, as a multiset of addresses (empty or a singleton). -/
def Worker.held (w : Worker) : Multiset Nat :=
  match w.node with
  | none => 0
  | some node => {node}

/-- The nodes held by the threads. -/
def Sys.held (s : Sys) : Multiset Nat :=
  (s.workers.map Worker.held).sum

/-- What the program counter of a thread says about its locals: it holds an allocated
node exactly between a pop (or the allocation) and the next push, the value it has
loaded for the increment is still the counter of that node, and its loop counter is 0
before the loop, below the budget inside it, and the budget after it. -/
def Worker.ok (itermax : Nat) (heap : List mynode) (w : Worker) : Prop :=
  match w.pc with
  | .alloc => w.node = none ∧ w.i = 0
  | .push_first => (∃ node n, w.node = some node ∧ heap[node]? = some n) ∧ w.i = 0
  | .wait_start _ => w.node = none ∧ w.i = 0
  | .clock_start => w.node = none ∧ w.i = 0
  | .loop_test => w.node = none ∧ w.i ≤ itermax
  | .pop => w.node = none ∧ w.i < itermax
  | .incr => (∃ node n, w.node = some node ∧ heap[node]? = some n) ∧ w.i < itermax
  | .store tmp => (∃ node, w.node = some node ∧ heap[node]? = some ⟨tmp⟩) ∧ w.i < itermax
  | .push => (∃ node n, w.node = some node ∧ heap[node]? = some n) ∧ w.i < itermax
  | .wait_done _ => w.node = none ∧ w.i = itermax
  | .clock_done => w.node = none ∧ w.i = itermax
  | .exited => w.node = none ∧ w.i = itermax

/-- Invariant of a run with `t` threads and a budget of `itermax`: every node is resident
or held by one thread, never both, and the counters add up to the increments executed. -/
def Sys.Inv (t itermax : Nat) (s : Sys) : Prop :=
  s.itermax = itermax ∧ s.workers.length = t
    ∧ (∀ (j : Nat) (w : Worker), s.workers[j]? = some w → w.ok itermax s.heap)
    ∧ (↑s.stack + s.held = Multiset.range s.heap.length)
    ∧ s.counters = s.increments

/-! ## A run of two workers -/

/-- A step of thread `tid` in which `lfstack_pop`, should the thread call it, hands out
the node pushed last. -/
def top_step (tid : Nat) : Action :=
  ⟨tid, false, some 0, ⟨0, 0⟩⟩

/-- One pass of thread `tid` through the loop of `work`: test, pop, load, store, push. -/
def loop_pass (tid : Nat) : List Action :=
  [top_step tid, top_step tid, top_step tid, top_step tid, top_step tid]

/-- The schedule `body` repeated `n` times. -/
def repeat_schedule : Nat → List Action → List Action
  | 0, _ => []
  | n + 1, body => body ++ repeat_schedule n body

/-- Both threads allocate and push their node and pass the start barrier. -/
def two_thread_prologue : List Action :=
  [top_step 0, top_step 0, top_step 1, top_step 1, top_step 0, top_step 1,
   top_step 0, top_step 0, top_step 0, top_step 0,
   top_step 1, top_step 1, top_step 1, top_step 1]

/-- Both threads leave the loop, pass the done barrier and exit. -/
def two_thread_epilogue : List Action :=
  [top_step 0, top_step 1, top_step 0, top_step 1,
   top_step 0, top_step 0, top_step 0, top_step 0,
   top_step 1, top_step 1, top_step 1, top_step 1]

/-- A complete run of two threads in which thread 0 runs its whole loop before thread 1
starts its own, every pop handing out the node pushed last. -/
def two_thread_schedule : List Action :=
  two_thread_prologue
    ++ (repeat_schedule 4194304 (loop_pass 0)
      ++ (repeat_schedule 4194304 (loop_pass 1) ++ two_thread_epilogue))

/-- The state of that run when thread 0 has made `k0` passes and thread 1 `k1`. -/
def two_thread_loop (k0 k1 : Nat) : Sys :=
  { bar_start := ⟨2, 0, 2⟩
    bar_done := ⟨0, 2, 2⟩
    ts_start := ⟨0, 0⟩
    ts_done := ⟨0, 0⟩
    itermax := 4194304
    heap := [⟨0⟩, ⟨k0 + k1⟩]
    stack := [1, 0]
    workers := [⟨.loop_test, none, k0, 0⟩, ⟨.loop_test, none, k1, 0⟩] }

/-- The state of a run of one thread after its first 11 steps: the thread has stored the
incremented counter of line 153 and stands before the push of line 155. -/
def one_thread_mid : Sys :=
  { bar_start := ⟨1, 0, 1⟩
    bar_done := ⟨0, 1, 1⟩
    ts_start := ⟨0, 0⟩
    ts_done := ⟨0, 0⟩
    itermax := 4194304
    heap := [⟨1⟩]
    stack := []
    workers := [⟨.push, some 0, 0, 0⟩] }

/-- The state in which that run ends. -/
def two_thread_final : Sys :=
  { bar_start := ⟨2, 0, 2⟩
    bar_done := ⟨2, 0, 2⟩
    ts_start := ⟨0, 0⟩
    ts_done := ⟨0, 0⟩
    itermax := 4194304
    heap := [⟨0⟩, ⟨8388608⟩]
    stack := [1, 0]
    workers := [⟨.exited, none, 4194304, 0⟩, ⟨.exited, none, 4194304, 0⟩] }

/-- How far a call is from returning, as the barrier stands: a polling call whose
loaded operand still makes the loop condition true has to test again. -/
def WaitPc.rank (bar : pthread_barrier_t) : WaitPc → Nat
  | .fetch_add => 6
  | .test => 4
  | .have_count k => if k < bar.max then 5 else 2
  | .have_max m => if bar.count < m then 5 else 2
  | .fetch_sub => 1
  | .store_max => 2
  | .store_count => 1
  | .returned _ => 0

/-- The sum of the ranks of all calls. -/
def BarrierSys.work_left (s : BarrierSys) : Nat :=
  (s.calls.map (WaitPc.rank s.bar)).sum

/-- The second cycle of two callers after its first caller has returned alone: the barrier
is back at `count ≤ 1`, `max = 2`, and the second caller has not left its loop. -/
def SecondStuck (s : BarrierSys) : Prop :=
  s.bar.max = 2 ∧ ∃ q, s.calls = [.returned PTHREAD_BARRIER_SERIAL_THREAD, q]
    ∧ ((q = .fetch_add ∧ s.bar.count = 0)
      ∨ (s.bar.count = 1 ∧ (q = .test ∨ q = .have_count 1 ∨ q = .have_max 2)))

/-! ## Arithmetic facts -/

theorem main_itermax_eq (t : Nat) (ht : 1 ≤ t) :
    main_itermax t = some (min (134217728 / t) 4194304) := by
  unfold main_itermax
  have h0 : t ≠ 0 := by omega
  simp only [h0, if_false]
  norm_num
  by_cases h : 4194304 < 134217728 / t
  · rw [if_pos h, min_eq_right (le_of_lt h)]
  · rw [if_neg h, min_eq_left (not_lt.mp h)]

theorem itermax_mul_le (t : Nat) : min (134217728 / t) 4194304 * t ≤ 134217728 := by
  calc min (134217728 / t) 4194304 * t ≤ 134217728 / t * t :=
        Nat.mul_le_mul_right _ (min_le_left _ _)
    _ ≤ 134217728 := Nat.div_mul_le_self _ _

theorem lfstack_destroy_eq (g_count : Nat) (hg : g_count < ULONG_MOD)
    (resident : List mynode) :
    lfstack_destroy g_count resident
      = (g_count + (resident.map mynode.count).sum) % ULONG_MOD := by
  unfold lfstack_destroy
  induction resident generalizing g_count with
  | nil => simp [Nat.mod_eq_of_lt hg]
  | cons n ns ih =>
    simp only [List.foldl_cons, List.map_cons, List.sum_cons]
    have hlt : mydtor g_count n < ULONG_MOD := Nat.mod_lt _ (by decide)
    rw [ih (mydtor g_count n) hlt]
    unfold mydtor
    rw [Nat.add_mod, Nat.mod_mod, ← Nat.add_mod, Nat.add_assoc]

theorem main_iter_quot_some (elapsed : Int) (itermax : Nat) (h : itermax ≠ 0) :
    main_iter_quot elapsed itermax
      = some ((elapsed % (ULONG_MOD : Int)).toNat / itermax) := by
  simp [main_iter_quot, h]

theorem main_report_some (t itermax : Nat) (ts_start ts_done : timespec) (count empty : Nat)
    (h : itermax ≠ 0) :
    main_report t itermax ts_start ts_done count empty
      = some (if count ≠ main_expected itermax t then
          ⟨1, main_elapsed ts_start ts_done,
            ((main_elapsed ts_start ts_done) % (ULONG_MOD : Int)).toNat / itermax,
            count, empty, some (count, main_expected itermax t)⟩
        else
          ⟨0, main_elapsed ts_start ts_done,
            ((main_elapsed ts_start ts_done) % (ULONG_MOD : Int)).toNat / itermax,
            count, empty, none⟩) := by
  simp only [main_report, main_iter_quot_some _ _ h]
  split <;> rfl

theorem main_expected_eq (t : Nat) :
    main_expected (min (134217728 / t) 4194304) t = min (134217728 / t) 4194304 * t := by
  unfold main_expected
  apply Nat.mod_eq_of_lt
  have := itermax_mul_le t
  unfold ULONG_MOD
  omega

theorem itermax_pos (t : Nat) (h1 : 1 ≤ t) (h2 : t ≤ 134217728) :
    1 ≤ min (134217728 / t) 4194304 := by
  have : 1 ≤ 134217728 / t := (Nat.one_le_div_iff (by omega)).mpr h2
  exact le_min this (by decide)

/-! ## The iteration budget -/

/-- C2: for every thread count `t ≥ 1` the budget that `main` computes is
`min (134217728 / t) 4194304`; it is 4194304 for `t = 1`, `t = 32` and `t = 4`,
2097152 for `t = 64`, and for `t = 4` the expected total is 16777216. -/
theorem iteration_clamp (t : Nat) (ht : 1 ≤ t) :
    main_itermax t = some (min (134217728 / t) 4194304)
      ∧ main_itermax 1 = some 4194304
      ∧ main_itermax 32 = some 4194304
      ∧ main_itermax 64 = some 2097152
      ∧ main_itermax 4 = some 4194304
      ∧ main_expected 4194304 4 = 16777216 :=
  ⟨main_itermax_eq t ht, by decide, by decide, by decide, by decide, by decide⟩

theorem iteration_clamp_witness :
    main_itermax 12 = some (min (134217728 / 12) 4194304)
      ∧ main_itermax 1 = some 4194304
      ∧ main_itermax 32 = some 4194304
      ∧ main_itermax 64 = some 2097152
      ∧ main_itermax 4 = some 4194304
      ∧ main_expected 4194304 4 = 16777216 :=
  iteration_clamp 12 (by decide)

/-- C10: the divisions of lines 239 and 277 both have a non-zero divisor exactly when
`1 ≤ t ≤ 134217728`; in that range the budget is at least 1 and the expected total
`itermax * t` is at most 134217728 and does not wrap; `t = 0` makes the first divisor
zero, and every `t > 134217728` makes the budget, the second divisor, zero. -/
theorem division_safety (t : Nat) (elapsed : Int) :
    ((main_divisions t elapsed).isSome ↔ 1 ≤ t ∧ t ≤ 134217728)
      ∧ (1 ≤ t → t ≤ 134217728 →
          ∃ itermax, main_itermax t = some itermax ∧ 1 ≤ itermax
            ∧ itermax * t ≤ 134217728 ∧ main_expected itermax t = itermax * t)
      ∧ main_itermax 0 = none
      ∧ (134217728 < t → main_itermax t = some 0 ∧ main_iter_quot elapsed 0 = none) := by
  refine ⟨?_, ?_, by decide, ?_⟩
  · constructor
    · intro h
      by_cases h0 : t = 0
      · subst h0
        simp [main_divisions, main_itermax] at h
      · have h1 : 1 ≤ t := by omega
        refine ⟨h1, ?_⟩
        by_contra hgt
        have hz : 134217728 / t = 0 := Nat.div_eq_of_lt (by omega)
        simp [main_divisions, main_itermax_eq t h1, hz, main_iter_quot] at h
    · rintro ⟨h1, h2⟩
      have hp := itermax_pos t h1 h2
      have hne : min (134217728 / t) 4194304 ≠ 0 := by omega
      simp [main_divisions, main_itermax_eq t h1, main_iter_quot_some _ _ hne]
  · intro h1 h2
    exact ⟨_, main_itermax_eq t h1, itermax_pos t h1 h2, itermax_mul_le t, main_expected_eq t⟩
  · intro hgt
    have hz : 134217728 / t = 0 := Nat.div_eq_of_lt hgt
    refine ⟨?_, by simp [main_iter_quot]⟩
    rw [main_itermax_eq t (by omega), hz]
    rfl

theorem division_safety_witness :
    ((main_divisions 12 1000).isSome ↔ 1 ≤ 12 ∧ 12 ≤ 134217728)
      ∧ (1 ≤ 12 → 12 ≤ 134217728 →
          ∃ itermax, main_itermax 12 = some itermax ∧ 1 ≤ itermax
            ∧ itermax * 12 ≤ 134217728 ∧ main_expected itermax 12 = itermax * 12)
      ∧ main_itermax 0 = none
      ∧ (134217728 < 12 → main_itermax 12 = some 0 ∧ main_iter_quot 1000 0 = none) :=
  division_safety 12 1000

/-! ## Elapsed time -/

/-- C9: for timestamps whose `tv_nsec` lie in `[0, 1000000000)`, `timespecsub` yields a
`tv_nsec` in the same range, and `elapsed` as computed in `main` is the end timestamp
minus the start timestamp in nanoseconds; it is non-negative whenever the end is not
earlier than the start. -/
theorem elapsed_is_difference (ts_start ts_done : timespec)
    (hs0 : 0 ≤ ts_start.tv_nsec) (hs1 : ts_start.tv_nsec < 1000000000)
    (hd0 : 0 ≤ ts_done.tv_nsec) (hd1 : ts_done.tv_nsec < 1000000000) :
    0 ≤ (timespecsub ts_done ts_start).tv_nsec
      ∧ (timespecsub ts_done ts_start).tv_nsec < 1000000000
      ∧ main_elapsed ts_start ts_done
          = (ts_done.tv_sec * 1000000000 + ts_done.tv_nsec)
            - (ts_start.tv_sec * 1000000000 + ts_start.tv_nsec)
      ∧ (ts_start.tv_sec * 1000000000 + ts_start.tv_nsec
            ≤ ts_done.tv_sec * 1000000000 + ts_done.tv_nsec →
          0 ≤ main_elapsed ts_start ts_done) := by
  have key : main_elapsed ts_start ts_done
      = (ts_done.tv_sec * 1000000000 + ts_done.tv_nsec)
        - (ts_start.tv_sec * 1000000000 + ts_start.tv_nsec) := by
    unfold main_elapsed elapsed_of timespecsub
    by_cases h : ts_done.tv_nsec - ts_start.tv_nsec < 0
    · simp only [h, if_true]; ring
    · simp only [h, if_false]; ring
  refine ⟨?_, ?_, key, ?_⟩
  · unfold timespecsub
    by_cases h : ts_done.tv_nsec - ts_start.tv_nsec < 0
    · simp only [h, if_true]; omega
    · simp only [h, if_false]; omega
  · unfold timespecsub
    by_cases h : ts_done.tv_nsec - ts_start.tv_nsec < 0
    · simp only [h, if_true]; omega
    · simp only [h, if_false]; omega
  · intro hle
    rw [key]
    omega

theorem elapsed_is_difference_witness :
    0 ≤ (timespecsub ⟨7, 100⟩ ⟨5, 999999999⟩).tv_nsec
      ∧ (timespecsub ⟨7, 100⟩ ⟨5, 999999999⟩).tv_nsec < 1000000000
      ∧ main_elapsed ⟨5, 999999999⟩ ⟨7, 100⟩
          = ((7 : Int) * 1000000000 + 100) - (5 * 1000000000 + 999999999)
      ∧ ((5 : Int) * 1000000000 + 999999999 ≤ 7 * 1000000000 + 100 →
          0 ≤ main_elapsed ⟨5, 999999999⟩ ⟨7, 100⟩) :=
  elapsed_is_difference ⟨5, 999999999⟩ ⟨7, 100⟩ (by decide) (by decide) (by decide) (by decide)

/-! ## Teardown aggregation -/

/-- C7: starting from `g.count = 0`, applying `mydtor` once to each resident node, in any
order, leaves `g.count` equal to the sum of the nodes' counters in `u_long` arithmetic. -/
theorem teardown_order_independent (resident visited : List mynode)
    (h : visited.Perm resident) :
    lfstack_destroy 0 visited = (resident.map mynode.count).sum % ULONG_MOD := by
  rw [lfstack_destroy_eq 0 (by decide), Nat.zero_add, (h.map mynode.count).sum_eq]

theorem teardown_order_independent_witness :
    lfstack_destroy 0 [⟨5⟩, ⟨3⟩, ⟨9⟩]
      = (([⟨3⟩, ⟨9⟩, ⟨5⟩] : List mynode).map mynode.count).sum % ULONG_MOD :=
  teardown_order_independent [⟨3⟩, ⟨9⟩, ⟨5⟩] [⟨5⟩, ⟨3⟩, ⟨9⟩] (by decide)

/-! ## Validation -/

/-- C6: with `t` workers spawned and joined, `t` being a thread count at which the run
reaches the validation (`1 ≤ t ≤ 134217728`, the counts for which the divisions of lines
239 and 277 are defined), `main` terminates with status 0 if and only if the aggregated
total equals `itermax * t`; when they differ it writes both values to the error stream
and exits with status 1. -/
theorem validation_decides_status (t count empty : Nat) (ts_start ts_done : timespec)
    (h1 : 1 ≤ t) (h2 : t ≤ 134217728) :
    ∃ itermax o, main_itermax t = some itermax
      ∧ main_report t itermax ts_start ts_done count empty = some o
      ∧ (o.status = 0 ↔ count = itermax * t)
      ∧ (count ≠ itermax * t → o.status = 1 ∧ o.error = some (count, itermax * t))
      ∧ (count = itermax * t → o.error = none) := by
  have hp := itermax_pos t h1 h2
  have hne : min (134217728 / t) 4194304 ≠ 0 := by omega
  refine ⟨_, _, main_itermax_eq t h1, main_report_some t _ ts_start ts_done count empty hne,
    ?_, ?_, ?_⟩
  · rw [main_expected_eq t]
    by_cases hc : count = min (134217728 / t) 4194304 * t <;> simp [hc]
  · rw [main_expected_eq t]
    intro hc
    simp [hc]
  · rw [main_expected_eq t]
    intro hc
    simp [← hc]

theorem validation_decides_status_witness :
    ∃ itermax o, main_itermax 4 = some itermax
      ∧ main_report 4 itermax ⟨1, 0⟩ ⟨3, 500⟩ 16777216 7 = some o
      ∧ (o.status = 0 ↔ 16777216 = itermax * 4)
      ∧ (16777216 ≠ itermax * 4 → o.status = 1 ∧ o.error = some (16777216, itermax * 4))
      ∧ (16777216 = itermax * 4 → o.error = none) :=
  validation_decides_status 4 16777216 7 ⟨1, 0⟩ ⟨3, 500⟩ (by decide) (by decide)

/-! ## Lists of threads -/

theorem countP_set_add {α : Type} (p : α → Bool) (l : List α) (i : Nat) (x y : α)
    (h : l[i]? = some y) :
    (l.set i x).countP p + (if p y then 1 else 0)
      = l.countP p + (if p x then 1 else 0) := by
  induction l generalizing i with
  | nil => simp at h
  | cons a as ih =>
    cases i with
    | zero =>
      simp only [List.getElem?_cons_zero, Option.some.injEq] at h
      subst h
      simp only [List.set_cons_zero, List.countP_cons]
      omega
    | succ j =>
      simp only [List.getElem?_cons_succ] at h
      have := ih j h
      simp only [List.set_cons_succ, List.countP_cons]
      omega

theorem mem_of_getElem?_eq {α : Type} (l : List α) (i : Nat) (y : α) (h : l[i]? = some y) :
    y ∈ l := by
  rw [List.getElem?_eq_some] at h
  obtain ⟨hi, rfl⟩ := h
  exact List.getElem_mem hi

/-! ## The barrier holds its callers -/

theorem barrier_step_eq (s s' : BarrierSys) (a : WaitAction) (h : s.step a = some s') :
    ∃ pc bar pc', s.calls[a.tid]? = some pc
      ∧ pthread_barrier_wait_step s.bar pc a.max_first = some (bar, pc')
      ∧ s' = { bar := bar, calls := s.calls.set a.tid pc' } := by
  unfold BarrierSys.step at h
  cases hpc : s.calls[a.tid]? with
  | none => simp [hpc] at h
  | some pc =>
    cases hw : pthread_barrier_wait_step s.bar pc a.max_first with
    | none => simp [hpc, hw] at h
    | some r =>
      obtain ⟨bar, pc'⟩ := r
      simp only [hpc, hw, Option.some.injEq] at h
      exact ⟨pc, bar, pc', rfl, hw, h.symm⟩

theorem wait_step_arrived (bar bar' : pthread_barrier_t) (pc pc' : WaitPc) (mf : Bool)
    (h : pthread_barrier_wait_step bar pc mf = some (bar', pc')) : pc'.arrived = true := by
  cases pc <;> simp only [pthread_barrier_wait_step, Option.some.injEq, Prod.mk.injEq] at h
  · obtain ⟨-, rfl⟩ := h; rfl
  · cases mf <;> simp at h <;> obtain ⟨-, rfl⟩ := h <;> rfl
  · obtain ⟨-, rfl⟩ := h; split <;> rfl
  · obtain ⟨-, rfl⟩ := h; split <;> rfl
  · obtain ⟨-, rfl⟩ := h; split <;> rfl
  · obtain ⟨-, rfl⟩ := h; rfl
  · obtain ⟨-, rfl⟩ := h; rfl
  · exact absurd h (by simp)

theorem BarrierSys.arrivals_step (s s' : BarrierSys) (a : WaitAction)
    (h : s.step a = some s') : s.arrivals ≤ s'.arrivals := by
  obtain ⟨pc, bar, pc', hpc, hw, rfl⟩ := barrier_step_eq s s' a h
  have harr := wait_step_arrived _ _ _ _ _ hw
  have := countP_set_add WaitPc.arrived s.calls a.tid pc' pc hpc
  simp only [BarrierSys.arrivals]
  rw [harr] at this
  simp only [if_true] at this
  split at this <;> omega

theorem waitInv_fresh (c n : Nat) : WaitInv c (BarrierSys.fresh c n) := by
  right
  refine ⟨rfl, Nat.zero_le _, ?_⟩
  intro pc hpc
  have : pc = .fetch_add := List.eq_of_mem_replicate hpc
  subst this
  exact ⟨rfl, (by intro k hk; cases hk), (by intro m hm; cases hm)⟩

theorem waitInv_step (c : Nat) (s s' : BarrierSys) (a : WaitAction)
    (hinv : WaitInv c s) (h : s.step a = some s') : WaitInv c s' := by
  have hmono := BarrierSys.arrivals_step s s' a h
  by_cases hc : c ≤ s'.arrivals
  · exact Or.inl hc
  rcases hinv with hall | ⟨hmax, hcount, hcalls⟩
  · exact Or.inl (le_trans hall hmono)
  right
  obtain ⟨pc, bar, pc', hpc, hw, rfl⟩ := barrier_step_eq s s' a h
  have hmem := mem_of_getElem?_eq _ _ _ hpc
  obtain ⟨hrel, hk, hm⟩ := hcalls pc hmem
  have hlt : s.arrivals < c := by omega
  -- what the stepping call does to the barrier and to itself
  have hstep : bar.max = c ∧ bar.count ≤ BarrierSys.arrivals ⟨bar, s.calls.set a.tid pc'⟩
      ∧ pc'.released = false
      ∧ (∀ k, pc' = .have_count k → k ≤ BarrierSys.arrivals ⟨bar, s.calls.set a.tid pc'⟩)
      ∧ (∀ m, pc' = .have_max m → m = c) := by
    have hcnt := countP_set_add WaitPc.arrived s.calls a.tid pc' pc hpc
    simp only [BarrierSys.arrivals] at hmono hcount hlt hk ⊢
    cases pc <;> simp only [pthread_barrier_wait_step, Option.some.injEq, Prod.mk.injEq] at hw
    · obtain ⟨rfl, rfl⟩ := hw
      simp only [WaitPc.arrived] at hcnt
      refine ⟨hmax, ?_, rfl, (by intro k hk; cases hk), (by intro m hm; cases hm)⟩
      have : (s.bar.count + 1) % UINT_MOD ≤ s.bar.count + 1 := Nat.mod_le _ _
      simp only [if_true] at hcnt
      simp at hcnt
      simp only
      omega
    · cases hmf : a.max_first <;> simp [hmf] at hw <;> obtain ⟨rfl, rfl⟩ := hw
      · refine ⟨hmax, by omega, rfl, ?_, (by intro m hm; cases hm)⟩
        intro k hk'
        cases hk'
        omega
      · refine ⟨hmax, by omega, rfl, (by intro k hk; cases hk), ?_⟩
        intro m hm'
        cases hm'
        exact hmax
    · rename_i k
      obtain ⟨rfl, rfl⟩ := hw
      have hkk := hk k rfl
      have : k < s.bar.max := by omega
      clear hcnt
      simp only [this, if_true] at hmono ⊢
      exact ⟨hmax, by omega, rfl, (by intro k hk; cases hk), (by intro m hm; cases hm)⟩
    · rename_i m
      obtain ⟨rfl, rfl⟩ := hw
      have hmm := hm m rfl
      have : s.bar.count < m := by omega
      clear hcnt
      simp only [this, if_true] at hmono ⊢
      exact ⟨hmax, by omega, rfl, (by intro k hk; cases hk), (by intro m hm; cases hm)⟩
    · cases hrel
    · cases hrel
    · cases hrel
    · cases hrel
  obtain ⟨h1, h2, h3, h4, h5⟩ := hstep
  refine ⟨h1, h2, ?_⟩
  intro q hq
  rcases List.mem_or_eq_of_mem_set hq with hq | rfl
  · obtain ⟨hr, hk', hm'⟩ := hcalls q hq
    refine ⟨hr, ?_, hm'⟩
    intro k hkq
    exact le_trans (hk' k hkq) hmono
  · exact ⟨h3, h4, h5⟩

theorem waitInv_run (c : Nat) (sched : List WaitAction) (s s' : BarrierSys)
    (hinv : WaitInv c s) (h : s.run sched = some s') : WaitInv c s' := by
  induction sched generalizing s with
  | nil =>
    simp only [BarrierSys.run, Option.some.injEq] at h
    exact h ▸ hinv
  | cons a rest ih =>
    simp only [BarrierSys.run] at h
    cases hs : s.step a with
    | none => simp [hs] at h
    | some s1 =>
      simp only [hs] at h
      exact ih s1 (waitInv_step c s s1 a hinv hs) h

/-- C4: on a barrier freshly initialised with `pthread_barrier_init(c)`, in no reachable
state of any interleaving of any number of calls has a call of `pthread_barrier_wait`
left its polling loop (or returned) while fewer than `c` calls have performed their
arrival increment of `count`. -/
theorem barrier_holds_until_all_arrived (c callers : Nat) (sched : List WaitAction)
    (s : BarrierSys) (hrun : (BarrierSys.fresh c callers).run sched = some s)
    (pc : WaitPc) (hpc : pc ∈ s.calls) (hrel : pc.released = true) :
    c ≤ s.arrivals := by
  rcases waitInv_run c sched _ s (waitInv_fresh c callers) hrun with h | ⟨-, -, hcalls⟩
  · exact h
  · have := (hcalls pc hpc).1
    rw [hrel] at this
    cases this

/-! ## The first cycle of the barrier -/

theorem firstCycle_fresh (c : Nat) : FirstCycle c (BarrierSys.fresh c c) := by
  refine ⟨by simp [BarrierSys.fresh], rfl, ?_, ?_, ?_⟩
  · simp [BarrierSys.fresh, BarrierSys.arrivals, pthread_barrier_init, List.countP_replicate,
      WaitPc.arrived]
  · simp [BarrierSys.fresh, BarrierSys.returns, pthread_barrier_init, List.countP_replicate,
      WaitPc.is_returned]
  · intro pc hpc
    have : pc = .fetch_add := List.eq_of_mem_replicate hpc
    subst this
    rfl

theorem firstCycle_step (c : Nat) (hc : c < UINT_MOD) (s s' : BarrierSys) (a : WaitAction)
    (hinv : FirstCycle c s) (h : s.step a = some s') : FirstCycle c s' := by
  obtain ⟨hlen, hinit, hcount, hmax, hser⟩ := hinv
  obtain ⟨pc, bar, pc', hpc, hw, rfl⟩ := barrier_step_eq s s' a h
  have hmem := mem_of_getElem?_eq _ _ _ hpc
  have hs := hser pc hmem
  have harr := countP_set_add WaitPc.arrived s.calls a.tid pc' pc hpc
  have hret := countP_set_add WaitPc.is_returned s.calls a.tid pc' pc hpc
  have hlen' : (s.calls.set a.tid pc').length = c := by rw [List.length_set]; exact hlen
  have harr_le : (s.calls.set a.tid pc').countP WaitPc.arrived ≤ c :=
    hlen' ▸ List.countP_le_length _
  have hret_le : (s.calls.set a.tid pc').countP WaitPc.is_returned ≤ c :=
    hlen' ▸ List.countP_le_length _
  have hothers : ∀ q ∈ s.calls.set a.tid pc', pc'.serial = false → q.serial = false := by
    intro q hq hp
    rcases List.mem_or_eq_of_mem_set hq with hq | rfl
    · exact hser q hq
    · exact hp
  simp only [BarrierSys.arrivals, BarrierSys.returns] at hcount hmax ⊢
  unfold FirstCycle
  simp only [BarrierSys.arrivals, BarrierSys.returns]
  unfold UINT_MOD at hc
  cases pc <;> simp only [pthread_barrier_wait_step, Option.some.injEq, Prod.mk.injEq] at hw
  · obtain ⟨rfl, rfl⟩ := hw
    simp [WaitPc.arrived, WaitPc.is_returned] at harr hret
    refine ⟨hlen', hinit, ?_, by simp only; omega, fun q hq => hothers q hq rfl⟩
    simp only [UINT_MOD]
    rw [Nat.mod_eq_of_lt (by omega)]
    omega
  · cases hmf : a.max_first <;> simp [hmf] at hw <;> obtain ⟨rfl, rfl⟩ := hw <;>
      simp [WaitPc.arrived, WaitPc.is_returned] at harr hret <;>
      exact ⟨hlen', hinit, by omega, by omega, fun q hq => hothers q hq rfl⟩
  · rename_i k
    obtain ⟨rfl, rfl⟩ := hw
    by_cases hlt : k < s.bar.max <;>
      simp only [hlt, if_true, if_false] at harr hret hlen' hothers ⊢ <;>
      simp [WaitPc.arrived, WaitPc.is_returned] at harr hret <;>
      exact ⟨hlen', hinit, by omega, by omega, fun q hq => hothers q hq rfl⟩
  · rename_i m
    obtain ⟨rfl, rfl⟩ := hw
    by_cases hlt : s.bar.count < m <;>
      simp only [hlt, if_true, if_false] at harr hret hlen' hothers ⊢ <;>
      simp [WaitPc.arrived, WaitPc.is_returned] at harr hret <;>
      exact ⟨hlen', hinit, by omega, by omega, fun q hq => hothers q hq rfl⟩
  · obtain ⟨rfl, rfl⟩ := hw
    have hne : s.bar.max ≠ 0 := by
      intro h0
      have h1 := countP_set_add WaitPc.is_returned s.calls a.tid (.returned 0) .fetch_sub hpc
      have h2 : (s.calls.set a.tid (.returned 0)).countP WaitPc.is_returned ≤ c := by
        have := List.countP_le_length WaitPc.is_returned (l := s.calls.set a.tid (.returned 0))
        rw [List.length_set, hlen] at this
        exact this
      simp [WaitPc.is_returned] at h1
      omega
    simp only [hne, if_false] at harr hret hlen' hothers ⊢
    simp [WaitPc.arrived, WaitPc.is_returned] at harr hret
    refine ⟨hlen', hinit, by omega, ?_, fun q hq => hothers q hq rfl⟩
    simp only [UINT_MOD]
    have : (s.bar.max + 4294967296 - 1) % 4294967296 = s.bar.max - 1 := by omega
    norm_num
    omega
  · cases hs
  · cases hs
  · exact absurd hw (by simp)

theorem firstCycle_run (c : Nat) (hc : c < UINT_MOD) (sched : List WaitAction)
    (s s' : BarrierSys) (hinv : FirstCycle c s) (h : s.run sched = some s') :
    FirstCycle c s' := by
  induction sched generalizing s with
  | nil =>
    simp only [BarrierSys.run, Option.some.injEq] at h
    exact h ▸ hinv
  | cons a rest ih =>
    simp only [BarrierSys.run] at h
    cases hs : s.step a with
    | none => simp [hs] at h
    | some s1 =>
      simp only [hs] at h
      exact ih s1 (firstCycle_step c hc s s1 a hinv hs) h

/-! ## One step of a worker -/

theorem sum_map_set {α M : Type} [AddCommMonoid M] (f : α → M) (l : List α) (i : Nat)
    (x y : α) (h : l[i]? = some y) :
    ((l.set i x).map f).sum + f y = (l.map f).sum + f x := by
  induction l generalizing i with
  | nil => simp at h
  | cons a as ih =>
    cases i with
    | zero =>
      simp only [List.getElem?_cons_zero, Option.some.injEq] at h
      subst h
      simp only [List.set_cons_zero, List.map_cons, List.sum_cons]
      abel
    | succ j =>
      simp only [List.getElem?_cons_succ] at h
      have := ih j h
      simp only [List.set_cons_succ, List.map_cons, List.sum_cons]
      rw [add_assoc, this, add_assoc]

theorem perm_cons_eraseIdx {α : Type} (l : List α) (k : Nat) (x : α) (h : l[k]? = some x) :
    (x :: l.eraseIdx k).Perm l := by
  induction l generalizing k with
  | nil => simp at h
  | cons a as ih =>
    cases k with
    | zero =>
      simp only [List.getElem?_cons_zero, Option.some.injEq] at h
      subst h
      simp
    | succ j =>
      simp only [List.getElem?_cons_succ] at h
      simp only [List.eraseIdx_cons_succ]
      exact (List.Perm.swap a x _).trans ((ih j h).cons a)

theorem sys_step_eq (s s' : Sys) (a : Action) (h : s.step a = some s') :
    ∃ w s1 w', s.workers[a.tid]? = some w ∧ work_step s w a = some (s1, w')
      ∧ s' = { s1 with workers := s.workers.set a.tid w' } := by
  unfold Sys.step at h
  cases hw : s.workers[a.tid]? with
  | none => simp [hw] at h
  | some w =>
    cases hs : work_step s w a with
    | none => simp [hw, hs] at h
    | some r =>
      obtain ⟨s1, w'⟩ := r
      simp only [hw, hs, Option.some.injEq] at h
      exact ⟨w, s1, w', rfl, hs, h.symm⟩

theorem wait_start_spec (s s1 : Sys) (w w' : Worker) (a : Action) (wpc : WaitPc)
    (hpc : w.pc = .wait_start wpc) (h : work_step s w a = some (s1, w')) :
    s1.itermax = s.itermax ∧ s1.heap = s.heap ∧ s1.stack = s.stack
      ∧ w'.node = w.node
      ∧ ((w'.i = w.i ∧ ((∃ q, w'.pc = .wait_start q) ∨ w'.pc = .clock_start))
          ∨ (w'.i = 0 ∧ w'.pc = .loop_test)) := by
  obtain ⟨pc, node, i, empty⟩ := w
  simp only at hpc
  subst hpc
  cases wpc <;> simp only [work_step, pthread_barrier_wait_step] at h
  case test =>
    cases hmf : a.max_first <;> simp [hmf] at h <;> obtain ⟨rfl, rfl⟩ := h <;> simp
  case returned r =>
    by_cases hr : r ≠ 0
    · rw [if_pos hr] at h
      simp only [Option.some.injEq, Prod.mk.injEq] at h
      obtain ⟨rfl, rfl⟩ := h
      simp
    · rw [if_neg hr] at h
      simp only [Option.some.injEq, Prod.mk.injEq] at h
      obtain ⟨rfl, rfl⟩ := h
      simp
  all_goals
    simp only [Option.some.injEq, Prod.mk.injEq] at h
    obtain ⟨rfl, rfl⟩ := h
    simp

theorem wait_done_spec (s s1 : Sys) (w w' : Worker) (a : Action) (wpc : WaitPc)
    (hpc : w.pc = .wait_done wpc) (h : work_step s w a = some (s1, w')) :
    s1.itermax = s.itermax ∧ s1.heap = s.heap ∧ s1.stack = s.stack
      ∧ w'.node = w.node ∧ w'.i = w.i
      ∧ ((∃ q, w'.pc = .wait_done q) ∨ w'.pc = .clock_done ∨ w'.pc = .exited) := by
  obtain ⟨pc, node, i, empty⟩ := w
  simp only at hpc
  subst hpc
  cases wpc <;> simp only [work_step, pthread_barrier_wait_step] at h
  case test =>
    cases hmf : a.max_first <;> simp [hmf] at h <;> obtain ⟨rfl, rfl⟩ := h <;> simp
  case returned r =>
    by_cases hr : r ≠ 0
    · rw [if_pos hr] at h
      simp only [Option.some.injEq, Prod.mk.injEq] at h
      obtain ⟨rfl, rfl⟩ := h
      simp
    · rw [if_neg hr] at h
      simp only [Option.some.injEq, Prod.mk.injEq] at h
      obtain ⟨rfl, rfl⟩ := h
      simp
  all_goals
    simp only [Option.some.injEq, Prod.mk.injEq] at h
    obtain ⟨rfl, rfl⟩ := h
    simp

theorem work_step_spec (s s1 : Sys) (w w' : Worker) (a : Action)
    (h : work_step s w a = some (s1, w'))
    (hok : w.ok s.itermax s.heap)
    (hstk : ∀ node ∈ s.stack, node < s.heap.length)
    (hcap : ∀ n ∈ s.heap, n.count + 1 < ULONG_MOD) :
    s1.itermax = s.itermax
      ∧ w'.ok s.itermax s1.heap
      ∧ (∀ x n, s.heap[x]? = some n → w.node ≠ some x → s1.heap[x]? = some n)
      ∧ (↑s1.stack + w'.held + Multiset.range s.heap.length
          = (↑s.stack + w.held + Multiset.range s1.heap.length : Multiset Nat))
      ∧ (s1.heap.map mynode.count).sum + w.increments
          = (s.heap.map mynode.count).sum + w'.increments := by
  cases hpc : w.pc
  case wait_start wpc =>
    obtain ⟨h1, h2, h3, h4, h5⟩ := wait_start_spec s s1 w w' a wpc hpc h
    simp only [Worker.ok, hpc] at hok
    obtain ⟨hn, hi⟩ := hok
    refine ⟨h1, ?_, by rw [h2]; intro x n hx _; exact hx, ?_, ?_⟩
    · rcases h5 with ⟨hi', ⟨q, hq⟩ | hq⟩ | ⟨hi', hq⟩ <;>
        simp [Worker.ok, hq, h4, hn, hi', hi]
    · simp [Worker.held, h4, h3, h2]
    · rcases h5 with ⟨hi', ⟨q, hq⟩ | hq⟩ | ⟨hi', hq⟩ <;>
        simp [Worker.increments, hq, hpc, h2, hi', hi]
  case wait_done wpc =>
    obtain ⟨h1, h2, h3, h4, h5, h6⟩ := wait_done_spec s s1 w w' a wpc hpc h
    simp only [Worker.ok, hpc] at hok
    obtain ⟨hn, hi⟩ := hok
    refine ⟨h1, ?_, by rw [h2]; intro x n hx _; exact hx, ?_, ?_⟩
    · rcases h6 with ⟨q, hq⟩ | hq | hq <;>
        simp [Worker.ok, hq, h4, hn, h5, hi]
    · simp [Worker.held, h4, h3, h2]
    · rcases h6 with ⟨q, hq⟩ | hq | hq <;>
        simp [Worker.increments, hq, hpc, h2, h5]
  all_goals
    obtain ⟨pc, node, i, empty⟩ := w
    simp only at hpc
    subst hpc
    simp only [Worker.ok] at hok
  case alloc =>
    simp only [work_step, Option.some.injEq, Prod.mk.injEq] at h
    obtain ⟨rfl, rfl⟩ := h
    obtain ⟨rfl, rfl⟩ := hok
    refine ⟨rfl, ?_, ?_, ?_, ?_⟩
    · simp [Worker.ok]
    · intro x n hx _
      have hlt : x < s.heap.length := (List.getElem?_eq_some.mp hx).1
      simp only
      rw [List.getElem?_append_left hlt]
      exact hx
    · simp [Worker.held, Multiset.range_succ]
      rw [← Multiset.singleton_add]
      abel
    · simp [Worker.increments]
  case push_first =>
    obtain ⟨⟨x, n, rfl, hn⟩, rfl⟩ := hok
    simp only [work_step, Option.some.injEq, Prod.mk.injEq] at h
    obtain ⟨rfl, rfl⟩ := h
    refine ⟨rfl, by simp [Worker.ok], fun _ _ hx _ => hx, ?_, by simp [Worker.increments]⟩
    simp [Worker.held, lfstack_push]
    rw [← Multiset.cons_coe, ← Multiset.singleton_add, add_comm]
  case clock_start =>
    simp only [work_step, Option.some.injEq, Prod.mk.injEq] at h
    obtain ⟨rfl, rfl⟩ := h
    obtain ⟨rfl, rfl⟩ := hok
    exact ⟨rfl, by simp [Worker.ok], fun _ _ hx _ => hx, by simp [Worker.held],
      by simp [Worker.increments]⟩
  case loop_test =>
    obtain ⟨rfl, hi⟩ := hok
    simp only [work_step] at h
    by_cases hlt : i < s.itermax
    · rw [if_pos hlt] at h
      simp only [Option.some.injEq, Prod.mk.injEq] at h
      obtain ⟨rfl, rfl⟩ := h
      exact ⟨rfl, by simp [Worker.ok, hlt], fun _ _ hx _ => hx, by simp [Worker.held],
        by simp [Worker.increments]⟩
    · rw [if_neg hlt] at h
      simp only [Option.some.injEq, Prod.mk.injEq] at h
      obtain ⟨rfl, rfl⟩ := h
      exact ⟨rfl, by simp [Worker.ok]; omega, fun _ _ hx _ => hx, by simp [Worker.held],
        by simp [Worker.increments]⟩
  case pop =>
    obtain ⟨rfl, hi⟩ := hok
    simp only [work_step, lfstack_pop] at h
    cases hp : a.pick with
    | none =>
      simp only [hp, Option.some.injEq, Prod.mk.injEq] at h
      obtain ⟨rfl, rfl⟩ := h
      exact ⟨rfl, by simp [Worker.ok, hi], fun _ _ hx _ => hx, by simp [Worker.held],
        by simp [Worker.increments]⟩
    | some k =>
      simp only [hp] at h
      cases hk : s.stack[k]? with
      | none => simp [hk] at h
      | some x =>
        simp only [hk, Option.some.injEq, Prod.mk.injEq] at h
        obtain ⟨rfl, rfl⟩ := h
        have hmem := mem_of_getElem?_eq _ _ _ hk
        have hx := hstk x hmem
        have hperm : (↑s.stack : Multiset Nat) = x ::ₘ ↑(s.stack.eraseIdx k) := by
          rw [Multiset.cons_coe]
          exact (Multiset.coe_eq_coe.mpr (perm_cons_eraseIdx _ _ _ hk)).symm
        refine ⟨rfl, ?_, fun _ _ hx _ => hx, ?_, by simp [Worker.increments]⟩
        · simp only [Worker.ok]
          exact ⟨⟨x, s.heap[x], rfl, List.getElem?_eq_getElem hx⟩, hi⟩
        · simp [Worker.held]
          rw [hperm, ← Multiset.singleton_add, add_comm]
  case incr =>
    obtain ⟨⟨x, n, rfl, hn⟩, hi⟩ := hok
    simp only [work_step, hn, Option.some.injEq, Prod.mk.injEq] at h
    obtain ⟨rfl, rfl⟩ := h
    refine ⟨rfl, ?_, fun _ _ hx _ => hx, by simp [Worker.held], by simp [Worker.increments]⟩
    simp only [Worker.ok]
    exact ⟨⟨x, rfl, hn⟩, hi⟩
  case store tmp =>
    obtain ⟨⟨x, rfl, hn⟩, hi⟩ := hok
    simp only [work_step, hn, Option.some.injEq, Prod.mk.injEq] at h
    obtain ⟨rfl, rfl⟩ := h
    have hlt : x < s.heap.length := (List.getElem?_eq_some.mp hn).1
    have hc := hcap ⟨tmp⟩ (mem_of_getElem?_eq _ _ _ hn)
    have hsum := sum_map_set mynode.count s.heap x ⟨(tmp + 1) % ULONG_MOD⟩ _ hn
    simp only at hc
    rw [Nat.mod_eq_of_lt hc] at hsum ⊢
    refine ⟨rfl, ?_, ?_, ?_, ?_⟩
    · simp only [Worker.ok]
      exact ⟨⟨x, ⟨tmp + 1⟩, rfl, List.getElem?_set_self hlt⟩, hi⟩
    · intro y n hy hne
      have hxy : x ≠ y := fun hxy => hne (by rw [hxy])
      simp only
      rw [List.getElem?_set_ne hxy]
      exact hy
    · simp [Worker.held]
    · simp [Worker.increments] at hsum ⊢
      omega
  case push =>
    obtain ⟨⟨x, n, rfl, hn⟩, hi⟩ := hok
    simp only [work_step, Option.some.injEq, Prod.mk.injEq] at h
    obtain ⟨rfl, rfl⟩ := h
    refine ⟨rfl, by simp [Worker.ok]; omega, fun _ _ hx _ => hx, ?_,
      by simp [Worker.increments]⟩
    simp [Worker.held, lfstack_push]
    rw [← Multiset.cons_coe, ← Multiset.singleton_add, add_comm]
  case clock_done =>
    simp only [work_step, Option.some.injEq, Prod.mk.injEq] at h
    obtain ⟨rfl, rfl⟩ := h
    obtain ⟨rfl, rfl⟩ := hok
    exact ⟨rfl, by simp [Worker.ok], fun _ _ hx _ => hx, by simp [Worker.held],
      by simp [Worker.increments]⟩
  case exited =>
    simp [work_step] at h

/-! ## The invariant of a run -/

theorem Worker.ok_frame (itermax : Nat) (heap heap' : List mynode) (w : Worker)
    (hframe : ∀ x n, w.node = some x → heap[x]? = some n → heap'[x]? = some n)
    (h : w.ok itermax heap) : w.ok itermax heap' := by
  obtain ⟨pc, node, i, empty⟩ := w
  cases pc <;> simp only [Worker.ok] at h ⊢ <;>
    first
    | exact h
    | (obtain ⟨⟨x, n, hx, hn⟩, hi⟩ := h
       exact ⟨⟨x, n, hx, hframe x n hx hn⟩, hi⟩)
    | (obtain ⟨⟨x, hx, hn⟩, hi⟩ := h
       exact ⟨⟨x, hx, hframe x _ hx hn⟩, hi⟩)

theorem Worker.increments_le (itermax : Nat) (heap : List mynode) (w : Worker)
    (h : w.ok itermax heap) : w.increments ≤ itermax := by
  obtain ⟨pc, node, i, empty⟩ := w
  cases pc <;> simp only [Worker.ok] at h <;> simp [Worker.increments] <;> omega

theorem sum_map_le {α : Type} (f : α → Nat) (k : Nat) (l : List α) (h : ∀ x ∈ l, f x ≤ k) :
    (l.map f).sum ≤ k * l.length := by
  induction l with
  | nil => simp
  | cons a as ih =>
    have h1 := h a (List.mem_cons_self _ _)
    have h2 := ih (fun x hx => h x (List.mem_cons_of_mem _ hx))
    simp only [List.map_cons, List.sum_cons, List.length_cons, Nat.mul_succ]
    omega

theorem sum_map_const {α M : Type} [AddCommMonoid M] (f : α → M) (k : M) (l : List α)
    (h : ∀ x ∈ l, f x = k) : (l.map f).sum = l.length • k := by
  induction l with
  | nil => simp
  | cons a as ih =>
    have h1 := h a (List.mem_cons_self _ _)
    have h2 := ih (fun x hx => h x (List.mem_cons_of_mem _ hx))
    simp only [List.map_cons, List.sum_cons, List.length_cons, h1, h2, succ_nsmul]
    abel

theorem le_sum_map_of_mem {α : Type} (f : α → Nat) (l : List α) (x : α) (h : x ∈ l) :
    f x ≤ (l.map f).sum := by
  induction l with
  | nil => cases h
  | cons a as ih =>
    simp only [List.map_cons, List.sum_cons]
    rcases List.mem_cons.mp h with rfl | h
    · omega
    · have := ih h
      omega

theorem mem_sum_map_of_mem {α : Type} (f : α → Multiset Nat) (l : List α) (x : α)
    (h : x ∈ l) (a : Nat) (ha : a ∈ f x) : a ∈ (l.map f).sum := by
  induction l with
  | nil => cases h
  | cons b bs ih =>
    simp only [List.map_cons, List.sum_cons, Multiset.mem_add]
    rcases List.mem_cons.mp h with rfl | h
    · exact Or.inl ha
    · exact Or.inr (ih h)

/-- Node exclusivity: two different threads never hold the same node. -/
theorem held_exclusive (s : Sys)
    (hms : ↑s.stack + s.held = Multiset.range s.heap.length) (i j : Nat) (w q : Worker)
    (hi : s.workers[i]? = some w) (hj : s.workers[j]? = some q) (hij : i ≠ j) (x : Nat)
    (hw : w.node = some x) (hq : q.node = some x) : False := by
  have h1 := sum_map_set Worker.held s.workers i { w with node := none } w hi
  have hq' : (s.workers.set i { w with node := none })[j]? = some q := by
    rw [List.getElem?_set_ne hij]
    exact hj
  have h2 : x ∈ ((s.workers.set i { w with node := none }).map Worker.held).sum :=
    mem_sum_map_of_mem _ _ q (mem_of_getElem?_eq _ _ _ hq') x (by simp [Worker.held, hq])
  have h3 : Multiset.count x s.held = Multiset.count x
      ((s.workers.set i { w with node := none }).map Worker.held).sum + 1 := by
    unfold Sys.held
    have h4 : w.held = {x} := by simp [Worker.held, hw]
    have h5 : Worker.held { w with node := none } = 0 := by simp [Worker.held]
    rw [h4, h5, add_zero] at h1
    rw [← h1, Multiset.count_add, Multiset.count_singleton_self]
  have h6 : 1 ≤ Multiset.count x
      ((s.workers.set i { w with node := none }).map Worker.held).sum :=
    Multiset.one_le_count_iff_mem.mpr h2
  have h7 : Multiset.count x (↑s.stack + s.held) ≤ 1 := by
    rw [hms]
    exact Multiset.nodup_iff_count_le_one.mp (Multiset.nodup_range _) x
  rw [Multiset.count_add] at h7
  omega

theorem sysInv_spawn (t itermax : Nat) : Sys.Inv t itermax (main_spawn t itermax) := by
  refine ⟨rfl, by simp [main_spawn], ?_, ?_, ?_⟩
  · intro j w hw
    have : w = ⟨.alloc, none, 0, 0⟩ := List.eq_of_mem_replicate (mem_of_getElem?_eq _ _ _ hw)
    subst this
    simp [Worker.ok]
  · have : (main_spawn t itermax).held = 0 := by
      unfold Sys.held
      rw [sum_map_const Worker.held 0]
      · simp
      · intro w hw
        have : w = ⟨.alloc, none, 0, 0⟩ := List.eq_of_mem_replicate hw
        subst this
        rfl
    rw [this]
    simp [main_spawn]
  · simp [Sys.counters, Sys.increments, main_spawn, Worker.increments]

theorem sysInv_step (t itermax : Nat) (hb : itermax * t ≤ 134217728) (s s' : Sys)
    (a : Action) (hinv : Sys.Inv t itermax s) (h : s.step a = some s') :
    Sys.Inv t itermax s' := by
  obtain ⟨him, hlen, hok, hms, hcnt⟩ := hinv
  obtain ⟨w, s1, w', hw, hstep, rfl⟩ := sys_step_eq s s' a h
  have hstk : ∀ node ∈ s.stack, node < s.heap.length := by
    intro node hnode
    have : node ∈ (↑s.stack + s.held : Multiset Nat) :=
      Multiset.mem_add.mpr (Or.inl (Multiset.mem_coe.mpr hnode))
    rw [hms] at this
    exact Multiset.mem_range.mp this
  have hincr : s.increments ≤ itermax * t := by
    rw [← hlen]
    refine sum_map_le _ _ _ (fun x hx => ?_)
    obtain ⟨j, hj⟩ := List.mem_iff_getElem?.mp hx
    exact Worker.increments_le _ _ x (hok j x hj)
  have hcap : ∀ n ∈ s.heap, n.count + 1 < ULONG_MOD := by
    intro n hn
    have h1 := le_sum_map_of_mem mynode.count s.heap n hn
    have h2 : (s.heap.map mynode.count).sum = s.increments := hcnt
    unfold ULONG_MOD
    omega
  have hokw := hok a.tid w hw
  rw [← him] at hokw
  obtain ⟨h1, h2, h3, h4, h5⟩ := work_step_spec s s1 w w' a hstep hokw hstk hcap
  rw [him] at h2
  have hheld := sum_map_set Worker.held s.workers a.tid w' w hw
  have hinc := sum_map_set Worker.increments s.workers a.tid w' w hw
  refine ⟨by simp only; rw [h1, him], by simp only [List.length_set]; exact hlen, ?_, ?_, ?_⟩
  · intro j q hq
    simp only at hq ⊢
    by_cases hij : a.tid = j
    · subst hij
      have hlt : a.tid < s.workers.length := (List.getElem?_eq_some.mp hw).1
      rw [List.getElem?_set_self hlt] at hq
      cases hq
      exact h2
    · rw [List.getElem?_set_ne hij] at hq
      refine Worker.ok_frame _ _ _ q ?_ (hok j q hq)
      intro x n hqx hn
      refine h3 x n hn ?_
      intro hwx
      exact held_exclusive s hms a.tid j w q hw hq hij x hwx hqx
  · simp only [Sys.held] at hms ⊢
    have key : (↑s1.stack + ((s.workers.set a.tid w').map Worker.held).sum)
        + (w.held + Multiset.range s.heap.length)
        = Multiset.range s1.heap.length + (w.held + Multiset.range s.heap.length) := by
      calc (↑s1.stack + ((s.workers.set a.tid w').map Worker.held).sum)
            + (w.held + Multiset.range s.heap.length)
          = (((s.workers.set a.tid w').map Worker.held).sum + w.held)
            + (↑s1.stack + Multiset.range s.heap.length) := by abel
        _ = ((s.workers.map Worker.held).sum + w'.held)
            + (↑s1.stack + Multiset.range s.heap.length) := by rw [hheld]
        _ = (↑s1.stack + w'.held + Multiset.range s.heap.length)
            + (s.workers.map Worker.held).sum := by abel
        _ = (↑s.stack + w.held + Multiset.range s1.heap.length)
            + (s.workers.map Worker.held).sum := by rw [h4]
        _ = (↑s.stack + (s.workers.map Worker.held).sum)
            + (w.held + Multiset.range s1.heap.length) := by abel
        _ = Multiset.range s.heap.length + (w.held + Multiset.range s1.heap.length) := by
            rw [hms]
        _ = Multiset.range s1.heap.length + (w.held + Multiset.range s.heap.length) := by
            abel
    exact add_right_cancel key
  · simp only [Sys.counters, Sys.increments] at hcnt ⊢
    omega

theorem sysInv_run (t itermax : Nat) (hb : itermax * t ≤ 134217728) (sched : List Action)
    (s s' : Sys) (hinv : Sys.Inv t itermax s) (h : s.run sched = some s') :
    Sys.Inv t itermax s' := by
  induction sched generalizing s with
  | nil =>
    simp only [Sys.run, Option.some.injEq] at h
    exact h ▸ hinv
  | cons a rest ih =>
    simp only [Sys.run] at h
    cases hs : s.step a with
    | none => simp [hs] at h
    | some s2 =>
      simp only [hs] at h
      exact ih s2 (sysInv_step t itermax hb s s2 a hinv hs) h

/-! ## Teardown after a completed run -/

theorem map_getD_range {α : Type} (l : List α) (d : α) :
    (List.range l.length).map (fun i => l.getD i d) = l := by
  apply List.ext_getElem
  · simp
  · intro i h1 h2
    simp [List.getD_eq_getElem?_getD, List.getElem?_eq_getElem h2]

theorem main_destroy_eq (s : Sys) (visited : List Nat) :
    main_destroy s visited = (visited.map s.counter_at).sum % ULONG_MOD := by
  unfold main_destroy
  rw [lfstack_destroy_eq 0 (by decide), Nat.zero_add, List.map_map]
  rfl

theorem Sys.all_exited_iff (s : Sys) :
    s.all_exited = true ↔ ∀ w ∈ s.workers, w.pc = .exited := by
  simp [Sys.all_exited]

theorem sysInv_resident_sum (t itermax : Nat) (s : Sys) (hinv : Sys.Inv t itermax s)
    (hexit : s.all_exited = true) :
    (s.stack.map s.counter_at).sum = itermax * t := by
  obtain ⟨-, hlen, hok, hms, hcnt⟩ := hinv
  rw [Sys.all_exited_iff] at hexit
  have hheld : s.held = 0 := by
    unfold Sys.held
    rw [sum_map_const Worker.held 0]
    · simp
    · intro w hw
      obtain ⟨j, hj⟩ := List.mem_iff_getElem?.mp hw
      have h1 := hok j w hj
      simp only [Worker.ok, hexit w hw] at h1
      simp [Worker.held, h1.1]
  have hinc : s.increments = itermax * t := by
    unfold Sys.increments
    rw [sum_map_const Worker.increments itermax, hlen, smul_eq_mul, Nat.mul_comm]
    intro w hw
    obtain ⟨j, hj⟩ := List.mem_iff_getElem?.mp hw
    have h1 := hok j w hj
    simp only [Worker.ok, hexit w hw] at h1
    simp [Worker.increments, hexit w hw, h1.2]
  rw [hheld, add_zero] at hms
  have h1 : ((↑s.stack : Multiset Nat).map s.counter_at).sum
      = ((Multiset.range s.heap.length).map s.counter_at).sum := by rw [hms]
  rw [Multiset.map_coe, Multiset.sum_coe] at h1
  rw [h1, ← hinc, ← hcnt]
  unfold Sys.counters
  have h2 := map_getD_range s.heap ⟨0⟩
  conv_rhs => rw [← h2]
  rw [List.map_map]
  rfl

/-! ## Conservation -/

/-- C1, amended: for every thread count `t ≥ 1`, with the budget `itermax` that `main` computes,
and every interleaving of the workers' steps against a stack honouring the contract: the
sum of the counters of all nodes always equals the number of increments the workers' loops
have completed, which is the number of completed loop iterations whenever no worker
stands between its increment and the push that ends the iteration; and once every worker
has finished, the total `g.count` that the teardown with `mydtor` aggregates, whatever
order it visits the resident nodes in, equals `itermax * t`, with
`itermax = min (134217728 / t) 4194304`. -/
theorem conservation (t itermax : Nat) (ht : 1 ≤ t) (hit : main_itermax t = some itermax)
    (sched : List Action) (s : Sys) (hrun : (main_spawn t itermax).run sched = some s) :
    s.counters = s.increments
      ∧ ((∀ w ∈ s.workers, w.pc ≠ .push) → s.counters = s.iterations)
      ∧ (s.all_exited = true → ∀ visited : List Nat, visited.Perm s.stack →
          main_destroy s visited = itermax * t
            ∧ itermax = min (134217728 / t) 4194304) := by
  have him : itermax = min (134217728 / t) 4194304 := by
    rw [main_itermax_eq t ht] at hit
    exact (Option.some.inj hit).symm
  have hb : itermax * t ≤ 134217728 := him ▸ itermax_mul_le t
  have hinv := sysInv_run t itermax hb sched _ s (sysInv_spawn t itermax) hrun
  refine ⟨hinv.2.2.2.2, ?_, ?_⟩
  · intro hpush
    rw [hinv.2.2.2.2]
    unfold Sys.increments Sys.iterations
    apply congrArg
    apply List.map_congr_left
    intro w hw
    simp [Worker.increments, hpush w hw]
  intro hexit visited hperm
  refine ⟨?_, him⟩
  rw [main_destroy_eq, (hperm.map s.counter_at).sum_eq,
    sysInv_resident_sum t itermax s hinv hexit]
  apply Nat.mod_eq_of_lt
  unfold ULONG_MOD
  omega

/-! ## A run of two workers -/

theorem Sys.run_append (s s1 : Sys) (l1 l2 : List Action) (h : s.run l1 = some s1) :
    s.run (l1 ++ l2) = s1.run l2 := by
  induction l1 generalizing s with
  | nil =>
    simp only [Sys.run, Option.some.injEq] at h
    subst h
    rfl
  | cons a rest ih =>
    simp only [Sys.run, List.cons_append] at h ⊢
    cases hs : s.step a with
    | none => simp [hs] at h
    | some s2 =>
      simp only [hs] at h ⊢
      exact ih s2 h

theorem two_thread_pass_0 (k0 k1 : Nat) (h0 : k0 < 4194304) (h1 : k1 ≤ 4194304) :
    (two_thread_loop k0 k1).run (loop_pass 0) = some (two_thread_loop (k0 + 1) k1) := by
  have hm : (k0 + k1 + 1) % ULONG_MOD = k0 + 1 + k1 :=
    by rw [Nat.mod_eq_of_lt (by unfold ULONG_MOD; omega)]; omega
  simp [two_thread_loop, loop_pass, top_step, Sys.run, Sys.step, work_step, lfstack_pop,
    lfstack_push, h0, hm]

theorem two_thread_pass_1 (k0 k1 : Nat) (h0 : k0 ≤ 4194304) (h1 : k1 < 4194304) :
    (two_thread_loop k0 k1).run (loop_pass 1) = some (two_thread_loop k0 (k1 + 1)) := by
  have hm : (k0 + k1 + 1) % ULONG_MOD = k0 + (k1 + 1) :=
    by rw [Nat.mod_eq_of_lt (by unfold ULONG_MOD; omega)]; omega
  simp [two_thread_loop, loop_pass, top_step, Sys.run, Sys.step, work_step, lfstack_pop,
    lfstack_push, h1, hm]

theorem two_thread_passes_0 (n k0 k1 : Nat) (h0 : k0 + n ≤ 4194304) (h1 : k1 ≤ 4194304) :
    (two_thread_loop k0 k1).run (repeat_schedule n (loop_pass 0))
      = some (two_thread_loop (k0 + n) k1) := by
  induction n generalizing k0 with
  | zero => rfl
  | succ n ih =>
    simp only [repeat_schedule]
    rw [Sys.run_append _ _ _ _ (two_thread_pass_0 k0 k1 (by omega) h1), ih (k0 + 1) (by omega)]
    congr 2
    omega

theorem two_thread_passes_1 (n k0 k1 : Nat) (h0 : k0 ≤ 4194304) (h1 : k1 + n ≤ 4194304) :
    (two_thread_loop k0 k1).run (repeat_schedule n (loop_pass 1))
      = some (two_thread_loop k0 (k1 + n)) := by
  induction n generalizing k1 with
  | zero => rfl
  | succ n ih =>
    simp only [repeat_schedule]
    rw [Sys.run_append _ _ _ _ (two_thread_pass_1 k0 k1 h0 (by omega)), ih (k1 + 1) (by omega)]
    congr 2
    omega

theorem two_thread_run :
    (main_spawn 2 4194304).run two_thread_schedule = some two_thread_final := by
  have hp : (main_spawn 2 4194304).run two_thread_prologue = some (two_thread_loop 0 0) := by
    decide
  have he : (two_thread_loop 4194304 4194304).run two_thread_epilogue
      = some two_thread_final := by
    decide
  unfold two_thread_schedule
  rw [Sys.run_append _ _ _ _ hp,
    Sys.run_append _ _ _ _ (two_thread_passes_0 4194304 0 0 (by decide) (by decide)),
    Sys.run_append _ _ _ _ (two_thread_passes_1 4194304 4194304 0 (by decide) (by decide))]
  exact he

/-- C1, as stated, fails as an invariant of every state: a single thread that has run
`work` up to its first `node->count++` (line 153) and not yet to the push of line 155
has completed no loop iteration, and the counter of its node is already 1. -/
theorem conservation_counterexample :
    main_itermax 1 = some 4194304
      ∧ (main_spawn 1 4194304).run (List.replicate 11 (top_step 0)) = some one_thread_mid
      ∧ one_thread_mid.counters = 1
      ∧ one_thread_mid.iterations = 0
      ∧ one_thread_mid.counters ≠ one_thread_mid.iterations :=
  ⟨by decide, by decide, by decide, by decide, by decide⟩

theorem conservation_witness :
    two_thread_final.all_exited = true
      ∧ two_thread_final.counters = two_thread_final.increments
      ∧ two_thread_final.counters = two_thread_final.iterations
      ∧ main_destroy two_thread_final [0, 1] = 4194304 * 2 :=
  have h := conservation 2 4194304 (by decide) (by decide) two_thread_schedule
    two_thread_final two_thread_run
  ⟨by decide, h.1, h.2.1 (by decide), (h.2.2 (by decide) [0, 1] (by decide)).1⟩

/-! ## A teardown that skips a node -/

/-- C8, as stated, fails: in the complete run `two_thread_schedule` of two threads every
pop hands out node 1, so node 0 keeps the counter 0; a teardown that skips node 0 and
visits node 1 aggregates 8388608, which is `itermax * 2`, and `main` reports no mismatch
and returns status 0. -/
theorem skipped_node_counterexample :
    main_itermax 2 = some 4194304
      ∧ (main_spawn 2 4194304).run two_thread_schedule = some two_thread_final
      ∧ two_thread_final.all_exited = true
      ∧ 0 ∈ two_thread_final.stack
      ∧ two_thread_final.stack.erase 0 = [1]
      ∧ two_thread_final.counter_at 0 = 0
      ∧ main_finish 2 two_thread_final [1] = some ⟨0, 0, 0, 8388608, 0, none⟩ :=
  ⟨by decide, two_thread_run, by decide, by decide, by decide, by decide, by decide⟩

/-- C8, amended: for every completed run (`t ≥ 1` threads, all workers finished against a
stack honouring the contract) in which the teardown visits every resident node except
one, the aggregated total is short of `itermax * t` by exactly the skipped node's
counter; when that counter is not zero, `main` reports the mismatch with both values and
exits with status 1; when it is zero (and `t ≤ 134217728`), `main` reports no mismatch
and returns 0. -/
theorem teardown_skipping_one (t itermax : Nat) (ht : 1 ≤ t)
    (hit : main_itermax t = some itermax) (sched : List Action) (s : Sys)
    (hrun : (main_spawn t itermax).run sched = some s) (hexit : s.all_exited = true)
    (skipped : Nat) (hsk : skipped ∈ s.stack) (visited : List Nat)
    (hv : visited.Perm (s.stack.erase skipped)) :
    main_destroy s visited + s.counter_at skipped = itermax * t
      ∧ (s.counter_at skipped ≠ 0 →
          ∃ o, main_finish t s visited = some o ∧ o.status = 1
            ∧ o.error = some (main_destroy s visited, itermax * t))
      ∧ (s.counter_at skipped = 0 → t ≤ 134217728 →
          ∃ o, main_finish t s visited = some o ∧ o.status = 0 ∧ o.error = none) := by
  have him : itermax = min (134217728 / t) 4194304 := by
    rw [main_itermax_eq t ht] at hit
    exact (Option.some.inj hit).symm
  have hb : itermax * t ≤ 134217728 := him ▸ itermax_mul_le t
  have hinv := sysInv_run t itermax hb sched _ s (sysInv_spawn t itermax) hrun
  have hsum := sysInv_resident_sum t itermax s hinv hexit
  have hperm : (skipped :: visited).Perm s.stack :=
    (hv.cons skipped).trans (List.perm_cons_erase hsk).symm
  have htot : (visited.map s.counter_at).sum + s.counter_at skipped = itermax * t := by
    rw [← hsum, ← (hperm.map s.counter_at).sum_eq, List.map_cons, List.sum_cons, Nat.add_comm]
  have hdes : main_destroy s visited = (visited.map s.counter_at).sum := by
    rw [main_destroy_eq]
    apply Nat.mod_eq_of_lt
    unfold ULONG_MOD
    omega
  have hexp : main_expected itermax t = itermax * t := by
    rw [him]
    exact main_expected_eq t
  have hs : s.itermax = itermax := hinv.1
  refine ⟨by rw [hdes]; exact htot, ?_, ?_⟩
  · intro hne
    have hi : itermax ≠ 0 := by
      rintro rfl
      simp at htot
      exact hne htot.2
    have hfin := main_report_some t itermax s.ts_start s.ts_done (main_destroy s visited)
      (main_join s) hi
    rw [hexp, if_pos (by omega)] at hfin
    exact ⟨_, by unfold main_finish; rw [hs]; exact hfin, rfl, rfl⟩
  · intro hz h2
    have hi : itermax ≠ 0 := by
      have := itermax_pos t ht h2
      omega
    have hfin := main_report_some t itermax s.ts_start s.ts_done (main_destroy s visited)
      (main_join s) hi
    rw [hexp, if_neg (by omega)] at hfin
    exact ⟨_, by unfold main_finish; rw [hs]; exact hfin, rfl, rfl⟩

theorem teardown_skipping_one_witness :
    main_destroy two_thread_final [0] + two_thread_final.counter_at 1 = 4194304 * 2
      ∧ two_thread_final.counter_at 1 ≠ 0
      ∧ ∃ o, main_finish 2 two_thread_final [0] = some o ∧ o.status = 1
          ∧ o.error = some (main_destroy two_thread_final [0], 4194304 * 2) :=
  have h := teardown_skipping_one 2 4194304 (by decide) (by decide) two_thread_schedule
    two_thread_final two_thread_run (by decide) 1 (by decide) [0] (by decide)
  ⟨h.1, by decide, h.2.1 (by decide)⟩

/-! ## Every call of the first cycle returns -/

theorem sum_map_mono {α : Type} (f g : α → Nat) (l : List α) (h : ∀ x, f x ≤ g x) :
    (l.map f).sum ≤ (l.map g).sum := by
  induction l with
  | nil => simp
  | cons a as ih =>
    have := h a
    simp only [List.map_cons, List.sum_cons]
    omega

theorem work_left_lt (bar bar' : pthread_barrier_t) (l : List WaitPc) (i : Nat)
    (x y : WaitPc) (hy : l[i]? = some y)
    (hmono : ∀ pc, WaitPc.rank bar' pc ≤ WaitPc.rank bar pc)
    (hlt : WaitPc.rank bar' x < WaitPc.rank bar' y) :
    BarrierSys.work_left ⟨bar', l.set i x⟩ < BarrierSys.work_left ⟨bar, l⟩ := by
  have h1 := sum_map_set (WaitPc.rank bar') l i x y hy
  have h2 := sum_map_mono _ _ l hmono
  simp only [BarrierSys.work_left]
  omega

theorem rank_mono (bar bar' : pthread_barrier_t) (hmax : bar'.max ≤ bar.max)
    (hcount : bar.count ≤ bar'.count) (pc : WaitPc) :
    WaitPc.rank bar' pc ≤ WaitPc.rank bar pc := by
  cases pc <;> simp only [WaitPc.rank, le_refl]
  · split <;> split <;> omega
  · split <;> split <;> omega

theorem firstCycle_progress (c : Nat) (hc : c < UINT_MOD) (s : BarrierSys)
    (hinv : FirstCycle c s) (hsome : ∃ pc ∈ s.calls, pc.is_returned = false) :
    ∃ a s1, s.step a = some s1 ∧ s1.work_left < s.work_left := by
  obtain ⟨hlen, hinit, hcount, hmax, hser⟩ := hinv
  obtain ⟨bar, calls⟩ := s
  simp only at hlen hinit hcount hmax hser hsome
  simp only [BarrierSys.arrivals, BarrierSys.returns] at hcount hmax
  have hc' : c < 4294967296 := hc
  by_cases hfa : WaitPc.fetch_add ∈ calls
  · obtain ⟨i, hi⟩ := List.mem_iff_getElem?.mp hfa
    have harr := countP_set_add WaitPc.arrived calls i .test .fetch_add hi
    have hle : (calls.set i .test).countP WaitPc.arrived ≤ c := by
      have := List.countP_le_length WaitPc.arrived (l := calls.set i .test)
      rw [List.length_set, hlen] at this
      exact this
    simp [WaitPc.arrived] at harr
    have hmod : (bar.count + 1) % UINT_MOD = bar.count + 1 :=
      Nat.mod_eq_of_lt (by unfold UINT_MOD; omega)
    refine ⟨⟨i, false⟩, ⟨{ bar with count := (bar.count + 1) % UINT_MOD }, calls.set i .test⟩,
      ?_, ?_⟩
    · simp [BarrierSys.step, hi, pthread_barrier_wait_step]
    · apply work_left_lt _ _ _ _ _ _ hi
      · exact rank_mono _ _ (le_refl _) (by simp only [hmod]; omega)
      · simp [WaitPc.rank]
  · have hall : calls.countP WaitPc.arrived = calls.length := by
      apply List.countP_eq_length.mpr
      intro pc hpc
      cases pc <;> first | rfl | exact absurd hpc hfa
    obtain ⟨pc, hpc, hnot⟩ := hsome
    obtain ⟨i, hi⟩ := List.mem_iff_getElem?.mp hpc
    have hs := hser pc hpc
    have hret := countP_set_add WaitPc.is_returned calls i (.returned 0) pc hi
    have hret_le : (calls.set i (.returned 0)).countP WaitPc.is_returned ≤ c := by
      have := List.countP_le_length WaitPc.is_returned (l := calls.set i (.returned 0))
      rw [List.length_set, hlen] at this
      exact this
    rw [hnot] at hret
    simp [WaitPc.is_returned] at hret
    have hmax_pos : 1 ≤ bar.max := by omega
    have hcnt : bar.count = c := by omega
    cases pc with
    | fetch_add => exact absurd hpc hfa
    | test =>
      refine ⟨⟨i, false⟩, ⟨bar, calls.set i (.have_count bar.count)⟩, ?_, ?_⟩
      · simp [BarrierSys.step, hi, pthread_barrier_wait_step]
      · apply work_left_lt _ _ _ _ _ _ hi (fun _ => le_refl _)
        have : ¬ bar.count < bar.max := by omega
        simp [WaitPc.rank, this]
    | have_count k =>
      refine ⟨⟨i, false⟩,
        ⟨bar, calls.set i (if k < bar.max then .test else .fetch_sub)⟩, ?_, ?_⟩
      · simp [BarrierSys.step, hi, pthread_barrier_wait_step]
      · apply work_left_lt _ _ _ _ _ _ hi (fun _ => le_refl _)
        by_cases hk : k < bar.max <;> simp [WaitPc.rank, hk]
    | have_max m =>
      refine ⟨⟨i, false⟩,
        ⟨bar, calls.set i (if bar.count < m then .test else .fetch_sub)⟩, ?_, ?_⟩
      · simp [BarrierSys.step, hi, pthread_barrier_wait_step]
      · apply work_left_lt _ _ _ _ _ _ hi (fun _ => le_refl _)
        by_cases hk : bar.count < m <;> simp [WaitPc.rank, hk]
    | fetch_sub =>
      have hne : bar.max ≠ 0 := by omega
      have hsub : (bar.max + UINT_MOD - 1) % UINT_MOD = bar.max - 1 := by
        unfold UINT_MOD
        omega
      refine ⟨⟨i, false⟩,
        ⟨{ bar with max := (bar.max + UINT_MOD - 1) % UINT_MOD }, calls.set i (.returned 0)⟩,
        ?_, ?_⟩
      · simp [BarrierSys.step, hi, pthread_barrier_wait_step, hne]
      · apply work_left_lt _ _ _ _ _ _ hi
        · exact rank_mono _ _ (by simp only [hsub]; omega) (le_refl _)
        · simp [WaitPc.rank]
    | store_max => cases hs
    | store_count => cases hs
    | returned r => cases hnot

theorem returned_zero_of_not_pending (s : BarrierSys)
    (hnone : ¬ ∃ pc ∈ s.calls, pc.is_returned = false)
    (hser : ∀ pc ∈ s.calls, pc.serial = false) :
    ∀ pc ∈ s.calls, pc = .returned 0 := by
  intro pc hpc
  have hs := hser pc hpc
  cases pc with
  | returned r =>
    have : r = 0 := by simpa [WaitPc.serial] using hs
    rw [this]
  | _ => exact absurd ⟨_, hpc, rfl⟩ hnone

theorem firstCycle_completes (c : Nat) (hc : c < UINT_MOD) (n : Nat) (s : BarrierSys)
    (hinv : FirstCycle c s) (hn : s.work_left ≤ n) :
    ∃ rest s', s.run rest = some s' ∧ ∀ pc ∈ s'.calls, pc = .returned 0 := by
  induction n generalizing s with
  | zero =>
    by_cases hsome : ∃ pc ∈ s.calls, pc.is_returned = false
    · obtain ⟨a, s1, -, hlt⟩ := firstCycle_progress c hc s hinv hsome
      omega
    · refine ⟨[], s, rfl, ?_⟩
      intro pc hpc
      have hs' := hinv.2.2.2.2
      exact returned_zero_of_not_pending s hsome hs' pc hpc
  | succ n ih =>
    by_cases hsome : ∃ pc ∈ s.calls, pc.is_returned = false
    · obtain ⟨a, s1, hstep, hlt⟩ := firstCycle_progress c hc s hinv hsome
      obtain ⟨rest, s', hrun, hall⟩ :=
        ih s1 (firstCycle_step c hc s s1 a hinv hstep) (by omega)
      refine ⟨a :: rest, s', ?_, hall⟩
      simp only [BarrierSys.run, hstep]
      exact hrun
    · refine ⟨[], s, rfl, ?_⟩
      intro pc hpc
      have hs' := hinv.2.2.2.2
      exact returned_zero_of_not_pending s hsome hs' pc hpc

/-! ## What the barrier does in its first cycle -/

/-- C3, what the code does: for every capacity `c` (a `u_int`) and every interleaving of
`c` calls of `pthread_barrier_wait` on a freshly initialised barrier, no call ever takes
the branch of lines 95-97, and none returns `PTHREAD_BARRIER_SERIAL_THREAD`: every call
that returns, returns 0.  No call is left behind: from every state that an interleaving
reaches, the calls can all run on until each of the `c` has returned, with 0. -/
theorem barrier_first_cycle_no_serial (c : Nat) (hc : c < UINT_MOD)
    (sched : List WaitAction) (s : BarrierSys)
    (hrun : (BarrierSys.fresh c c).run sched = some s) :
    (∀ pc ∈ s.calls, pc.serial = false
      ∧ pc ≠ .returned PTHREAD_BARRIER_SERIAL_THREAD
      ∧ ∀ r, pc = .returned r → r = 0)
      ∧ ∃ rest s', s.run rest = some s' ∧ ∀ pc ∈ s'.calls, pc = .returned 0 := by
  have hinv := firstCycle_run c hc sched _ s (firstCycle_fresh c) hrun
  refine ⟨?_, firstCycle_completes c hc _ s hinv (le_refl _)⟩
  intro pc hpc
  have hs := hinv.2.2.2.2 pc hpc
  refine ⟨hs, ?_, ?_⟩
  · rintro rfl
    simp [WaitPc.serial, PTHREAD_BARRIER_SERIAL_THREAD] at hs
  · rintro r rfl
    simpa [WaitPc.serial] using hs

theorem barrier_first_cycle_no_serial_witness :
    (BarrierSys.fresh 1 1).run [⟨0, false⟩, ⟨0, false⟩, ⟨0, false⟩, ⟨0, false⟩]
        = some ⟨⟨1, 0, 1⟩, [.returned 0]⟩
      ∧ ∀ pc ∈ [WaitPc.returned 0], pc.serial = false
          ∧ pc ≠ .returned PTHREAD_BARRIER_SERIAL_THREAD
          ∧ ∀ r, pc = .returned r → r = 0 :=
  ⟨by decide,
    (barrier_first_cycle_no_serial 1 (by decide)
      [⟨0, false⟩, ⟨0, false⟩, ⟨0, false⟩, ⟨0, false⟩] ⟨⟨1, 0, 1⟩, [.returned 0]⟩
      (by decide)).1⟩

/-- C5, what the code does: for every capacity `c ≥ 1` (a `u_int`), once all `c` calls
of the first cycle have returned, the barrier holds `count = c` and `max = 0`, which is
not the state that `pthread_barrier_init(c)` produces. -/
theorem barrier_not_reset (c : Nat) (h1 : 1 ≤ c) (hc : c < UINT_MOD)
    (sched : List WaitAction) (s : BarrierSys)
    (hrun : (BarrierSys.fresh c c).run sched = some s)
    (hall : ∀ pc ∈ s.calls, pc.is_returned = true) :
    s.bar = ⟨c, 0, c⟩ ∧ s.bar ≠ pthread_barrier_init c := by
  obtain ⟨hlen, hinit, hcount, hmax, -⟩ := firstCycle_run c hc sched _ s (firstCycle_fresh c) hrun
  have hret : s.returns = c := by
    unfold BarrierSys.returns
    rw [← hlen]
    exact List.countP_eq_length.mpr hall
  have harr : s.arrivals = c := by
    unfold BarrierSys.arrivals
    rw [← hlen]
    apply List.countP_eq_length.mpr
    intro pc hpc
    have := hall pc hpc
    cases pc <;> simp_all [WaitPc.is_returned, WaitPc.arrived]
  have hbar : s.bar = ⟨c, 0, c⟩ := by
    obtain ⟨bar, calls⟩ := s
    obtain ⟨count, max, init⟩ := bar
    simp only at hinit hcount hmax
    simp only [pthread_barrier_t.mk.injEq]
    omega
  refine ⟨hbar, ?_⟩
  rw [hbar]
  simp only [pthread_barrier_init, ne_eq, pthread_barrier_t.mk.injEq]
  omega

theorem barrier_not_reset_witness :
    (BarrierSys.fresh 2 2).run
        [⟨0, false⟩, ⟨1, true⟩, ⟨0, false⟩, ⟨0, false⟩, ⟨0, false⟩,
         ⟨1, true⟩, ⟨1, true⟩, ⟨1, true⟩]
        = some ⟨⟨2, 0, 2⟩, [.returned 0, .returned 0]⟩
      ∧ (⟨2, 0, 2⟩ : pthread_barrier_t) ≠ pthread_barrier_init 2 :=
  ⟨by decide,
    (barrier_not_reset 2 (by decide) (by decide)
      [⟨0, false⟩, ⟨1, true⟩, ⟨0, false⟩, ⟨0, false⟩, ⟨0, false⟩,
       ⟨1, true⟩, ⟨1, true⟩, ⟨1, true⟩]
      ⟨⟨2, 0, 2⟩, [.returned 0, .returned 0]⟩ (by decide) (by decide)).2⟩

theorem secondStuck_step (s s' : BarrierSys) (a : WaitAction) (hinv : SecondStuck s)
    (h : s.step a = some s') : SecondStuck s' := by
  obtain ⟨hmax, q, hcalls, hq⟩ := hinv
  obtain ⟨pc, bar, pc', hpc, hw, rfl⟩ := barrier_step_eq s s' a h
  obtain ⟨bar0, calls⟩ := s
  simp only at hmax hcalls hq hpc hw
  subst hcalls
  obtain ⟨tid, mf⟩ := a
  simp only at hpc hw
  match tid with
  | 0 =>
    simp only [List.getElem?_cons_zero, Option.some.injEq] at hpc
    subst hpc
    simp [pthread_barrier_wait_step] at hw
  | 1 =>
    simp only [List.getElem?_cons_succ, List.getElem?_cons_zero, Option.some.injEq] at hpc
    subst hpc
    rcases hq with ⟨rfl, hc⟩ | ⟨hc, rfl | rfl | rfl⟩
    · simp only [pthread_barrier_wait_step, Option.some.injEq, Prod.mk.injEq] at hw
      obtain ⟨rfl, rfl⟩ := hw
      exact ⟨hmax, _, rfl, Or.inr ⟨by simp [hc, UINT_MOD], Or.inl rfl⟩⟩
    · cases mf <;> simp [pthread_barrier_wait_step] at hw <;> obtain ⟨rfl, rfl⟩ := hw
      · exact ⟨hmax, _, rfl, Or.inr ⟨hc, Or.inr (Or.inl (by rw [hc]))⟩⟩
      · exact ⟨hmax, _, rfl, Or.inr ⟨hc, Or.inr (Or.inr (by rw [hmax]))⟩⟩
    · simp only [pthread_barrier_wait_step, Option.some.injEq, Prod.mk.injEq] at hw
      obtain ⟨rfl, rfl⟩ := hw
      exact ⟨hmax, _, rfl, Or.inr ⟨hc, Or.inl (by simp [hmax])⟩⟩
    · simp only [pthread_barrier_wait_step, Option.some.injEq, Prod.mk.injEq] at hw
      obtain ⟨rfl, rfl⟩ := hw
      exact ⟨hmax, _, rfl, Or.inr ⟨hc, Or.inl (by simp [hc])⟩⟩
  | n + 2 => simp at hpc

theorem secondStuck_run (sched : List WaitAction) (s s' : BarrierSys)
    (hinv : SecondStuck s) (h : s.run sched = some s') : SecondStuck s' := by
  induction sched generalizing s with
  | nil =>
    simp only [BarrierSys.run, Option.some.injEq] at h
    exact h ▸ hinv
  | cons a rest ih =>
    simp only [BarrierSys.run] at h
    cases hs : s.step a with
    | none => simp [hs] at h
    | some s1 =>
      simp only [hs] at h
      exact ih s1 (secondStuck_step s s1 a hinv hs) h

/-- In a second cycle on the barrier that a first cycle of two calls has left behind, the
first caller does not wait: alone, it passes the loop, takes the branch of lines 95-97
and returns `PTHREAD_BARRIER_SERIAL_THREAD` while the second caller has not arrived.  The
second caller then never leaves its polling loop, whatever the interleaving. -/
theorem barrier_second_cycle_differs :
    (BarrierSys.again ⟨⟨2, 0, 2⟩, [.returned 0, .returned 0]⟩ 2).run
        [⟨0, false⟩, ⟨0, false⟩, ⟨0, false⟩, ⟨0, false⟩, ⟨0, false⟩, ⟨0, false⟩]
        = some ⟨⟨0, 2, 2⟩, [.returned PTHREAD_BARRIER_SERIAL_THREAD, .fetch_add]⟩
      ∧ ∀ sched s,
          BarrierSys.run ⟨⟨0, 2, 2⟩, [.returned PTHREAD_BARRIER_SERIAL_THREAD, .fetch_add]⟩
            sched = some s →
          ∃ q, s.calls = [.returned PTHREAD_BARRIER_SERIAL_THREAD, q] ∧ q.released = false := by
  refine ⟨by decide, ?_⟩
  intro sched s hrun
  have h0 : SecondStuck
      ⟨⟨0, 2, 2⟩, [.returned PTHREAD_BARRIER_SERIAL_THREAD, .fetch_add]⟩ :=
    ⟨rfl, _, rfl, Or.inl ⟨rfl, rfl⟩⟩
  obtain ⟨-, q, hcalls, hq⟩ := secondStuck_run sched _ s h0 hrun
  refine ⟨q, hcalls, ?_⟩
  rcases hq with ⟨rfl, -⟩ | ⟨-, rfl | rfl | rfl⟩ <;> rfl

theorem barrier_holds_until_all_arrived_witness :
    (BarrierSys.fresh 2 2).run [⟨0, false⟩, ⟨1, true⟩, ⟨0, false⟩, ⟨0, false⟩]
        = some ⟨⟨2, 2, 2⟩, [.fetch_sub, .test]⟩
      ∧ 2 ≤ BarrierSys.arrivals ⟨⟨2, 2, 2⟩, [.fetch_sub, .test]⟩ :=
  ⟨by decide,
    barrier_holds_until_all_arrived 2 2 [⟨0, false⟩, ⟨1, true⟩, ⟨0, false⟩, ⟨0, false⟩]
      ⟨⟨2, 2, 2⟩, [.fetch_sub, .test]⟩ (by decide) .fetch_sub (by decide) rfl⟩

end LFStack
